import Mathlib

/-!
Shallow embedding of `resources/lib/backgroundthread.py` (PlexKodiConnect):
the cooperatively cancellable thread (`KillableThread`), the task machinery
(`Task`, `Tasks`, `MutablePriorityQueue`, `BackgroundThreader`,
`ThreaderManager`) and the section-ordered compound queue
(`ProcessingQueue` with its per-section sub-queues, the plain FIFO
`Queue.Queue` and the index-ordered `OrderedQueue`).

Python threads, locks, condition variables and blocking waits are modelled
by pure state-transition functions: an operation that would block returns
`none` (or leaves the state unchanged in the trace semantics), and each
public method becomes a function from the receiver's state to the new
state plus the returned value.
-/

namespace PKC

/-! ## KillableThread (backgroundthread.py lines 18-107)

Each `threading.Event` is modelled by its boolean `is_set` state.
The process-wide stop signal `app.APP.stop_pkc` (an external collaborator)
is passed as an argument to `should_cancel`. -/

structure KillableThread where
  _canceled : Bool
  _suspended : Bool
  _is_not_suspended : Bool
  _suspension_reached : Bool
  _is_not_asleep : Bool
  suspension_timeout : Option Int
  deriving DecidableEq, Repr

namespace KillableThread

/-- Python `__init__`: `_canceled = False`, `_suspended = False`,
`_is_not_suspended.set()`, `_is_not_asleep.set()`, `suspension_timeout = None`;
`_suspension_reached` starts cleared. -/
def init : KillableThread :=
  { _canceled := false
    _suspended := false
    _is_not_suspended := true
    _suspension_reached := false
    _is_not_asleep := true
    suspension_timeout := none }

/-- Python `should_cancel(self)`: `self._canceled or app.APP.stop_pkc`. -/
def should_cancel (t : KillableThread) (stop_pkc : Bool) : Bool :=
  t._canceled || stop_pkc

/-- Python `cancel(self)`: set the flag, then set both events so that a thread
blocked in `wait_while_suspended` (waiting on `_is_not_suspended`) or in
`sleep` (waiting on `_is_not_asleep`) is woken up. -/
def cancel (t : KillableThread) : KillableThread :=
  { t with _canceled := true, _is_not_suspended := true, _is_not_asleep := true }

/-- Python `should_suspend(self)`. -/
def should_suspend (t : KillableThread) : Bool :=
  t._suspended

/-- Python `suspend(self, block, timeout)`: state effect only (the optional wait on
`_suspension_reached` by the caller does not change this thread's state). -/
def suspend (t : KillableThread) (timeout : Option Int) : KillableThread :=
  { t with suspension_timeout := timeout
           _suspended := true
           _is_not_suspended := false
           _is_not_asleep := true }

/-- Python `resume(self)`. -/
def resume (t : KillableThread) : KillableThread :=
  { t with _suspended := false, _is_not_suspended := true, _is_not_asleep := true }

/-- First half of `wait_while_suspended`: `self._suspension_reached.set()`,
then the thread waits on `_is_not_suspended`. -/
def wait_while_suspended_enter (t : KillableThread) : KillableThread :=
  { t with _suspension_reached := true }

/-- Second half of `wait_while_suspended`, once the wait returns:
`self._suspension_reached.clear()` (the method then returns `should_cancel()`). -/
def wait_while_suspended_exit (t : KillableThread) : KillableThread :=
  { t with _suspension_reached := false }

/-- Python `is_suspended(self)`. -/
def is_suspended (t : KillableThread) : Bool :=
  t._suspension_reached

/-- First half of `sleep`: `self._is_not_asleep.clear()`, then the thread
waits on `_is_not_asleep` (interrupted as soon as the event is set). -/
def sleep_enter (t : KillableThread) : KillableThread :=
  { t with _is_not_asleep := false }

/-- Second half of `sleep`, once the wait returns: `self._is_not_asleep.set()`. -/
def sleep_exit (t : KillableThread) : KillableThread :=
  { t with _is_not_asleep := true }

/-- Python `is_asleep(self)`. -/
def is_asleep (t : KillableThread) : Bool :=
  !t._is_not_asleep

/-- Every state-changing operation of the control interface, used to state
that the cancelled flag is sticky under any interleaving of calls. -/
inductive Op where
  | cancel
  | suspend (timeout : Option Int)
  | resume
  | wws_enter
  | wws_exit
  | sleep_enter
  | sleep_exit
  deriving DecidableEq, Repr

def step (t : KillableThread) : Op → KillableThread
  | .cancel => t.cancel
  | .suspend timeout => t.suspend timeout
  | .resume => t.resume
  | .wws_enter => t.wait_while_suspended_enter
  | .wws_exit => t.wait_while_suspended_exit
  | .sleep_enter => t.sleep_enter
  | .sleep_exit => t.sleep_exit

end KillableThread

/-! ## Task and Tasks (backgroundthread.py lines 307-349)

A `Task` object carries a mutable `priority`, a `_canceled` and a `finished`
flag; `id` models Python object identity (distinct objects never compare
equal under the default `==`). -/

structure Task where
  id : Nat
  priority : Int
  _canceled : Bool
  finished : Bool
  deriving DecidableEq, Repr

namespace Task

/-- Python `isValid(self)`: `not self.finished and not self._canceled`. -/
def isValid (t : Task) : Bool :=
  !t.finished && !t._canceled

/-- Python `cancel(self)`. -/
def cancel (t : Task) : Task :=
  { t with _canceled := true }

/-- Python `_run(self)`: runs the body, then `self.finished = True`. -/
def _run (t : Task) : Task :=
  { t with finished := true }

end Task

/-- The loop at the start of `Tasks.add`:
`for t in self: if not t.isValid(): self.remove(t)`.
Python's list iterator walks an integer cursor over the mutating list, so
removing the element at the cursor shifts the next element onto the cursor
position and the iterator then skips it.  `i` is the iterator's cursor and
`List.erase` is `list.remove` (drop the first occurrence).  The `fuel`
argument makes the recursion structural; `fuel = l.length` at the entry
point is exact: each iteration moves the cursor right by one and the list
never grows, so once the fuel runs out `i` is at least the current length
and the loop would stop anyway. -/
def tasksAddLoop : Nat → List Task → Nat → List Task
  | 0, l, _ => l
  | fuel + 1, l, i =>
    if h : i < l.length then
      let t := l.get ⟨i, h⟩
      if t.isValid then tasksAddLoop fuel l (i + 1)
      else tasksAddLoop fuel (l.erase t) (i + 1)
    else l

/-- Python `Tasks.add(self, task)` for a single task: drop invalid members (with the
iterator semantics above), then `self.append(task)`. -/
def Tasks.add (l : List Task) (task : Task) : List Task :=
  tasksAddLoop l.length l 0 ++ [task]

/-- Python `Tasks.add(self, task)` when `task` is a list: `self += task`. -/
def Tasks.addList (l : List Task) (tasks : List Task) : List Task :=
  tasksAddLoop l.length l 0 ++ tasks

/-! ## MutablePriorityQueue (backgroundthread.py lines 366-381)

The internal list `self.queue` is modelled as a `List Task`; `_put`
(`heapq.heappush`) is modelled as an append.  Tasks compare by `__cmp__`,
i.e. by `priority` alone, and `_get` does `self.queue.sort()` (a stable
sort on priorities) followed by `heappop` (which returns the sorted head),
so `_get` extracts the first task of minimal priority and every later
`_get` re-sorts; the heap-shape of the unobserved remainder is therefore
irrelevant and the remainder is kept in list order. -/

namespace MutablePriorityQueue

/-- Python `_get(self)`: `self.queue.sort(); return heappop(self.queue)` — extract
the first task of minimal priority (`sort` is stable and compares only
`priority`, `heappop` of a sorted list returns its head). -/
def _get : List Task → Option (Task × List Task)
  | [] => none
  | t :: ts =>
    match _get ts with
    | none => some (t, [])
    | some (m, rest) =>
      if t.priority ≤ m.priority then some (t, ts) else some (m, t :: rest)

/-- Python `lowest(self)`: `self.queue and min(self.queue) or None` — Python's
`min` returns the first element of minimal priority. -/
def lowest : List Task → Option Task
  | [] => none
  | t :: ts => some (ts.foldl (fun m b => if b.priority < m.priority then b else m) t)

/-- Repeatedly `_get` until the queue is empty: the order in which a
consumer that drains the queue is served.  Structural `fuel`; each `_get`
shortens the queue by one, so `fuel = q.length` is exact. -/
def drainFuel : Nat → List Task → List Task
  | 0, _ => []
  | fuel + 1, q =>
    match _get q with
    | none => []
    | some (t, rest) => t :: drainFuel fuel rest

def drain (q : List Task) : List Task :=
  drainFuel q.length q

end MutablePriorityQueue

/-! ## BackgroundThreader (backgroundthread.py lines 465-539) and
ThreaderManager (lines 542-567)

Worker threads are runtime objects; a worker is modelled by the class it
was instantiated from (`worker` argument), its name string, and a `busy`
flag abstracting `working()` (thread alive / executing a task), `False`
for a freshly created worker. -/

inductive WorkerKind where
  | backgroundWorker
  | nonstoppingBackgroundWorker
  deriving DecidableEq, Repr

structure BackgroundWorker where
  kind : WorkerKind
  name : String
  _abort : Bool
  busy : Bool
  deriving DecidableEq, Repr

/-- Python `BackgroundWorker.__init__(self, queue, name)` (the shared queue lives in
the threader). -/
def BackgroundWorker.init (kind : WorkerKind) (name : String) : BackgroundWorker :=
  { kind := kind, name := name, _abort := false, busy := false }

/-- Python `BackgroundWorker.abort(self)`. -/
def BackgroundWorker.abortW (w : BackgroundWorker) : BackgroundWorker :=
  { w with _abort := true }

structure BackgroundThreader where
  name : String
  _queue : List Task
  _abort : Bool
  priority : Int
  workers : List BackgroundWorker
  deriving DecidableEq, Repr

namespace BackgroundThreader

/-- Python default of the `worker_count` keyword argument of
`BackgroundThreader.__init__` (and of `ThreaderManager.__init__`). -/
def defaultWorkerCount : Nat := 6

/-- Python `BackgroundThreader.__init__(self, name, worker, worker_count=6)`:
`self.priority = -1` and `worker_count` workers named
`'queue.{name}:worker.{x}'`. -/
def init (name : String) (worker : WorkerKind)
    (worker_count : Nat := defaultWorkerCount) : BackgroundThreader :=
  { name := name
    _queue := []
    _abort := false
    priority := -1
    workers := (List.range worker_count).map fun x =>
      BackgroundWorker.init worker ("queue." ++ name ++ ":worker." ++ toString x) }

/-- Assign consecutive priorities `p, p+1, p+2, ...` to a list of tasks,
preserving their order (the `for t in tasks` loops of `addTasks` and
`addTasksToFront`, with the per-task `self._queue.put(t)` modelled as an
append at the end). -/
def assignFrom (p : Int) : List Task → List Task
  | [] => []
  | t :: ts => { t with priority := p } :: assignFrom (p + 1) ts

/-- Python `addTask(self, task)`: `task.priority = self._nextPriority()` (which
first increments `self.priority`), then enqueue. -/
def addTask (bt : BackgroundThreader) (t : Task) : BackgroundThreader :=
  { bt with priority := bt.priority + 1
            _queue := bt._queue ++ [{ t with priority := bt.priority + 1 }] }

/-- Python `addTasks(self, tasks)`: each task gets the next priority in turn. -/
def addTasks (bt : BackgroundThreader) (ts : List Task) : BackgroundThreader :=
  { bt with priority := bt.priority + ts.length
            _queue := bt._queue ++ assignFrom (bt.priority + 1) ts }

/-- Python `getLowestPrority(self)`: `lowest = self._queue.lowest()`; a `Task`
object is always truthy, so `if not lowest` is exactly the `None` test. -/
def getLowestPrority (bt : BackgroundThreader) : Option Int :=
  (MutablePriorityQueue.lowest bt._queue).map Task.priority

/-- Python `addTasksToFront(self, tasks)`: `p = lowest - len(tasks)`, then assign
`p, p+1, ...` in task order; when the queue is empty, fall back to
`addTasks`. -/
def addTasksToFront (bt : BackgroundThreader) (ts : List Task) : BackgroundThreader :=
  match bt.getLowestPrority with
  | none => bt.addTasks ts
  | some lowest =>
      { bt with _queue := bt._queue ++ assignFrom (lowest - ts.length) ts }

/-- Python `abort(self)`: mark the threader and all its workers. -/
def abortT (bt : BackgroundThreader) : BackgroundThreader :=
  { bt with _abort := true, workers := bt.workers.map BackgroundWorker.abortW }

/-- Python `hasTask(self)`: `any([w.working() for w in self.workers])`. -/
def hasTask (bt : BackgroundThreader) : Bool :=
  bt.workers.any BackgroundWorker.busy

end BackgroundThreader

structure ThreaderManager where
  index : Nat
  abandoned : List BackgroundThreader
  _workerhandler : WorkerKind
  threader : BackgroundThreader
  deriving DecidableEq, Repr

namespace ThreaderManager

/-- Python `ThreaderManager.__init__(self, worker=BackgroundWorker, worker_count=6)`. -/
def init (worker : WorkerKind)
    (worker_count : Nat := BackgroundThreader.defaultWorkerCount) : ThreaderManager :=
  { index := 0
    abandoned := []
    _workerhandler := worker
    threader := BackgroundThreader.init (toString 0) worker worker_count }

/-- Python `addTask` reaches the active threader through `__getattr__`. -/
def addTask (m : ThreaderManager) (t : Task) : ThreaderManager :=
  { m with threader := m.threader.addTask t }

/-- Python `reset(self)`: no-op while the active generation is idle; otherwise
abandon it and build a fresh `BackgroundThreader` passing only `name` and
`worker=self._workerhandler` — `worker_count` is **not** forwarded, so the
replacement uses the Python default of 6. -/
def reset (m : ThreaderManager) : ThreaderManager :=
  if m.threader._queue.isEmpty && !m.threader.hasTask then m
  else
    { index := m.index + 1
      abandoned := m.abandoned ++ [m.threader.abortT]
      _workerhandler := m._workerhandler
      threader := BackgroundThreader.init (toString (m.index + 1)) m._workerhandler }

end ThreaderManager

/-! ## Section objects

The `Section` class lives in `resources/lib/library_sync/sections.py`
(not part of the sources here); `backgroundthread.py` only reads
`section.plex_type`, `section.number_of_items`, `section.failed_items` and
compares sections with `==`.  Modelled from the spec: a section carries a
grouping kind (`plex_type`, the ordering requirement being
`plex_type == v.PLEX_TYPE_ALBUM`, i.e. the string `'album'`), an expected
item count and a failed-item count; `ident` stands for the object identity
that Python's default `==` compares, so two distinct registrations never
compare equal. -/

structure PlexSection where
  plex_type : String
  number_of_items : Int
  failed_items : Int
  ident : Nat
  deriving DecidableEq, Repr

/-- Python `v.PLEX_TYPE_ALBUM` from `variables.py`. -/
def PLEX_TYPE_ALBUM : String := "album"

/-- The dict `item[1]` that producers enqueue: `backgroundthread.py` reads
only its `'section'` key; the rest of the dict is opaque (`data`). -/
structure Payload where
  sect : PlexSection
  data : Nat
  deriving DecidableEq, Repr

/-- A queue item, the Python tuple `(count, item-dict)`; the sentinel is
`(None, None)`. -/
structure PQItem where
  index : Option Int
  payload : Option Payload
  deriving DecidableEq, Repr

/-! ## Sub-queues: Queue.Queue and OrderedQueue
(backgroundthread.py lines 279-304)

A plain `Queue.Queue` sub-queue is a FIFO deque (`_put` appends, `_get`
pops from the left).  An `OrderedQueue` is a `Queue.PriorityQueue` whose
`self.queue` is a heap of `(index, item)` tuples plus a `next_index`
counter starting at 0; the heap is modelled as a list kept sorted by
index, which refines the heap: only `queue[0]` (the minimum) and
`heappush`/`heappop` behaviour are ever observed.  Python 2 tuple
comparison puts `None` below every integer. -/

/-- Python 2 comparison on the `index` component (`None < int`). -/
def idxLe : Option Int → Option Int → Bool
  | none, _ => true
  | some _, none => false
  | some a, some b => a ≤ b

/-- Python `heapq.heappush` on the index-sorted model: insert after all smaller or
equal indices (ties keep arrival order; real data never produces ties). -/
def heapInsert (x : PQItem) : List PQItem → List PQItem
  | [] => [x]
  | y :: ys => if idxLe y.index x.index then y :: heapInsert x ys else x :: y :: ys

/-- One per-section sub-queue of the `ProcessingQueue`:
`_add_section` creates an `OrderedQueue` when the section's `plex_type` is
`v.PLEX_TYPE_ALBUM` and a plain `Queue.Queue` otherwise. -/
inductive SubQueue where
  | fifo (items : List PQItem)
  | ordered (heap : List PQItem) (next_index : Int)
  deriving DecidableEq, Repr

namespace SubQueue

/-- Python `_qsize` of the sub-queue (`len` of the deque / of the heap). -/
def qsize : SubQueue → Nat
  | fifo l => l.length
  | ordered h _ => h.length

/-- Python `_put`: `Queue.Queue._put` appends to the deque;
`OrderedQueue._put` heap-pushes (the `not_next_item.notify()` call wakes a
waiting consumer and has no state effect). -/
def push (x : PQItem) : SubQueue → SubQueue
  | fifo l => fifo (l ++ [x])
  | ordered h ni => ordered (heapInsert x h) ni

/-- Python `_get`: `Queue.Queue._get` pops from the left; `OrderedQueue._get`
waits while `self.queue[0][0] != self.next_index` — modelled as `none`
when it would block (also `none` on an empty queue, a state the callers
guard against) — then pops the heap minimum and increments `next_index`. -/
def pop : SubQueue → Option (PQItem × SubQueue)
  | fifo [] => none
  | fifo (x :: xs) => some (x, fifo xs)
  | ordered [] _ => none
  | ordered (x :: xs) ni =>
      if x.index = some ni then some (x, ordered xs (ni + 1)) else none

end SubQueue

/-! ## ProcessingQueue (backgroundthread.py lines 110-276)

`_current_section` and `_current_queue` always equal the heads of the
`_sections` and `_queues` deques (`None` when empty): they are only
assigned in `_switch_queues`, which sets them to the heads; `_add_section`
re-runs it when `_current_section is None` (which, by induction, happens
exactly when `_sections` is empty), and `_init_next_section` re-runs it
after popping both deques.  They are therefore modelled implicitly as
`sections.head?` / `queues.head?`. -/

structure ProcessingQueue where
  sections : List PlexSection
  queues : List SubQueue
  _counter : Int
  maxsize : Nat
  unfinished_tasks : Nat
  deriving DecidableEq, Repr

namespace ProcessingQueue

/-- Python `ProcessingQueue(maxsize)` (via `Queue.Queue.__init__` calling `_init`);
`maxsize = 0` means unbounded. -/
def empty (maxsize : Nat) : ProcessingQueue :=
  { sections := [], queues := [], _counter := 0, maxsize := maxsize,
    unfinished_tasks := 0 }

/-- Python `_qsize(self)`: size of the *current* sub-queue, `0` if there is none. -/
def _qsize (q : ProcessingQueue) : Nat :=
  match q.queues.head? with
  | some sq => sq.qsize
  | none => 0

/-- Python `_add_section(self, section)`: append the section and a fresh sub-queue
(`OrderedQueue` for album sections, `Queue.Queue` otherwise);
`_switch_queues` is implicit (heads). -/
def _add_section (q : ProcessingQueue) (s : PlexSection) : ProcessingQueue :=
  { q with sections := q.sections ++ [s]
           queues := q.queues ++
             [if s.plex_type = PLEX_TYPE_ALBUM then .ordered [] 0 else .fifo []] }

/-- Python `add_section(self, section)` just takes the mutex around `_add_section`. -/
def add_section (q : ProcessingQueue) (s : PlexSection) : ProcessingQueue :=
  q._add_section s

/-- Position of the first registered section comparing `==` to `s`
(the `for i, section in enumerate(self._sections): if item[1]['section'] == section`
loop of `_put`). -/
def sectionIndex (s : PlexSection) : List PlexSection → Option Nat
  | [] => none
  | t :: ts => if t = s then some 0 else (sectionIndex s ts).map (· + 1)

/-- Replace the element at position `i` (identity when out of range). -/
def listModify (f : SubQueue → SubQueue) : Nat → List SubQueue → List SubQueue
  | _, [] => []
  | 0, x :: xs => f x :: xs
  | i + 1, x :: xs => x :: listModify f i xs

/-- Python `_put(self, item)`: route the item into the sub-queue of the first
section equal to `item[1]['section']`; raise
`RuntimeError('Could not find section for item %s')` when no registered
section matches (also the behaviour on a sentinel-shaped item, whose
`item[1]` is `None`: `_put` is only ever reached with a real dict, and a
`None` payload could not name a section).  Returns the section position
`i` (used by `put` to decide whether to notify the consumer). -/
def _put (q : ProcessingQueue) (item : PQItem) : Option (Nat × ProcessingQueue) :=
  match item.payload with
  | none => none
  | some p =>
    match sectionIndex p.sect q.sections with
    | none => none
    | some i => some (i, { q with queues := listModify (SubQueue.push item) i q.queues })

/-- Outcome of `put`. -/
inductive PutOutcome where
  | ok (q : ProcessingQueue)
  | full
  | sectionNotFound
  deriving DecidableEq, Repr

/-- Python `put(self, item, block=True, timeout=None)`: when `maxsize > 0` and the
*current* sub-queue holds exactly `maxsize` items, a non-blocking call
raises `Queue.Full` and a blocking call waits (both modelled as `.full`,
i.e. the item is not enqueued now); otherwise `_put` routes the item
(`.sectionNotFound` models the `RuntimeError`) and `unfinished_tasks`
is incremented. -/
def put (q : ProcessingQueue) (item : PQItem) : PutOutcome :=
  if q.maxsize > 0 ∧ q._qsize = q.maxsize then .full
  else
    match q._put item with
    | none => .sectionNotFound
    | some (_, q') => .ok { q' with unfinished_tasks := q'.unfinished_tasks + 1 }

/-- Python `put_sentinel(self, section)`: force `number_of_items = 1` and
`failed_items = 0`, `_add_section` it, then `_put` the tuple
`(None, None)` directly into the sub-queue just appended
(`self._queues[-1]`). -/
def put_sentinel (q : ProcessingQueue) (s : PlexSection) : ProcessingQueue :=
  let s' := { s with number_of_items := 1, failed_items := 0 }
  let q1 := q._add_section s'
  { q1 with queues := listModify (SubQueue.push ⟨none, none⟩)
              (q1.queues.length - 1) q1.queues
            unfinished_tasks := q1.unfinished_tasks + 1 }

/-- Python `_get(self)`: pop from the current sub-queue (for an `OrderedQueue`
this blocks until the heap minimum carries `next_index` — modelled as
`none`), increment `_counter`, and when it reaches
`number_of_items - failed_items` run `_init_next_section` (pop the current
section and sub-queue, reset `_counter`).  Returns the full popped tuple;
the public `get` keeps only `item[1]`. -/
def _get (q : ProcessingQueue) : Option (PQItem × ProcessingQueue) :=
  match q.sections, q.queues with
  | s :: srest, sq :: qrest =>
    match sq.pop with
    | none => none
    | some (item, sq') =>
      if q._counter + 1 = s.number_of_items - s.failed_items then
        some (item, { q with sections := srest, queues := qrest, _counter := 0 })
      else
        some (item, { q with queues := sq' :: qrest, _counter := q._counter + 1 })
  | _, _ => none

/-- Python `get(self, block=True, timeout=None)`: blocks while `_qsize()` is zero
(and, inside `OrderedQueue._get`, while the next index is missing), both
modelled as `none`; on success returns `item[1]` — only the payload. -/
def get (q : ProcessingQueue) : Option (Option Payload × ProcessingQueue) :=
  (q._get).map fun r => (r.1.payload, r.2)

end ProcessingQueue

/-! ## Trace semantics for the ProcessingQueue

Producers and the single consumer interleave `put`, `add_section`,
`put_sentinel` and `get` calls.  A `get` (or `put`) that would block is a
stalled thread: it changes nothing and the caller retries later, so in a
trace it is a skipped step.  Each successful `get` is recorded together
with the registration ordinal of the section it was served from (`popped`
counts the sections already drained, so the active section always has
ordinal `popped`). -/

inductive PQOp where
  | addSection (s : PlexSection)
  | put (item : PQItem)
  | putSentinel (s : PlexSection)
  | get
  deriving DecidableEq, Repr

structure GotEntry where
  ordinal : Nat
  item : PQItem
  deriving DecidableEq, Repr

structure RunState where
  q : ProcessingQueue
  popped : Nat
  got : List GotEntry
  deriving DecidableEq, Repr

namespace RunState

def initState (maxsize : Nat) : RunState :=
  { q := ProcessingQueue.empty maxsize, popped := 0, got := [] }

end RunState

/-- One trace step.  `_init_next_section` pops exactly one section, so the
drop in `sections.length` (0 or 1) is the number of ordinals consumed by a
`get`. -/
def stepOp (st : RunState) : PQOp → RunState
  | .addSection s => { st with q := st.q.add_section s }
  | .put item =>
    match st.q.put item with
    | .ok q' => { st with q := q' }
    | .full => st
    | .sectionNotFound => st
  | .putSentinel s => { st with q := st.q.put_sentinel s }
  | .get =>
    match st.q._get with
    | none => st
    | some (item, q') =>
      { q := q'
        popped := st.popped + (st.q.sections.length - q'.sections.length)
        got := st.got ++ [⟨st.popped, item⟩] }

def run (maxsize : Nat) (ops : List PQOp) : RunState :=
  ops.foldl stepOp (RunState.initState maxsize)

/-- The sections registered by a trace, in registration order
(`put_sentinel` registers its section with `number_of_items = 1` and
`failed_items = 0`). -/
def registered : List PQOp → List PlexSection
  | [] => []
  | .addSection s :: ops => s :: registered ops
  | .putSentinel s :: ops =>
      { s with number_of_items := 1, failed_items := 0 } :: registered ops
  | .put _ :: ops => registered ops
  | .get :: ops => registered ops

/-- Number of `get`s already served from section ordinal `j`. -/
def countOrd (got : List GotEntry) (j : Nat) : Nat :=
  (got.filter (fun e => e.ordinal = j)).length

/-- The got entries of section ordinal `j`, in delivery order. -/
def entriesOrd (got : List GotEntry) (j : Nat) : List GotEntry :=
  got.filter (fun e => e.ordinal = j)

/-- Trace suffixes that register no further section: neither `add_section`
nor `put_sentinel` occurs (the discipline `put_sentinel` documents:
"must be the last section added"). -/
def noRegs (ops : List PQOp) : Bool :=
  ops.all fun op =>
    match op with
    | .addSection _ => false
    | .putSentinel _ => false
    | _ => true

/-- The index sequence `[some 0, some 1, ..., some (n-1)]` that an
ordering-required section must deliver. -/
def idxRange (n : Nat) : List (Option Int) :=
  (List.range n).map (fun k : Nat => some (k : Int))

/-- State of a queue whose *last* registered section is the sentinel
section `s'` (as `put_sentinel` demands): either everything including the
sentinel has been drained (both deques empty — from here every operation
is a no-op), or the sentinel still sits last with its FIFO sub-queue
headed by the `(None, None)` terminator, and, once it is the only section
left, the retrieval counter is 0 so that the very next successful `get`
pops the terminator and retires the section. -/
def SentinelInv (s' : PlexSection) (st : RunState) : Prop :=
  st.q.queues.length = st.q.sections.length ∧
  ((st.q.sections = [] ∧ st.q.queues = []) ∨
   (st.q.sections ≠ [] ∧
    st.q.sections.getLast? = some s' ∧
    (∃ junk, st.q.queues.getLast? = some (.fifo (⟨none, none⟩ :: junk))) ∧
    (st.q.sections = [s'] → st.q._counter = 0)))

/-- Reachability invariant of the `ProcessingQueue` trace semantics, for a
trace whose registrations are `regs`.  The active section always sits at
registration ordinal `popped`; `countOrd got popped` counts the `get`s
already served from it. -/
structure Inv (regs : List PlexSection) (st : RunState) : Prop where
  popped_le : st.popped ≤ regs.length
  secs_eq : st.q.sections = regs.drop st.popped
  len_eq : st.q.queues.length = st.q.sections.length
  kinds : ∀ (i : Nat) (sq : SubQueue) (s : PlexSection), st.q.queues[i]? = some sq →
    st.q.sections[i]? = some s →
    (s.plex_type = PLEX_TYPE_ALBUM ↔ ∃ h ni, sq = .ordered h ni)
  ord_le : ∀ e ∈ st.got, e.ordinal ≤ st.popped
  ord_lt : st.q.sections = [] → ∀ e ∈ st.got, e.ordinal < st.popped
  mono : st.got.Pairwise (fun a b => a.ordinal ≤ b.ordinal)
  counter_empty : st.q.sections = [] → st.q._counter = 0
  counter_eq : st.q.sections ≠ [] → st.q._counter = (countOrd st.got st.popped : Int)
  ordered_ni : ∀ (h : List PQItem) (ni : Int), st.q.queues.head? = some (.ordered h ni) →
    ni = (countOrd st.got st.popped : Int)
  fresh_ni : ∀ (i : Nat) h ni, 0 < i → st.q.queues[i]? = some (.ordered h ni) → ni = 0
  album_idx : ∀ (j : Nat) (s : PlexSection), regs[j]? = some s → s.plex_type = PLEX_TYPE_ALBUM →
    (entriesOrd st.got j).map (fun e => e.item.index) = idxRange (countOrd st.got j)
  drained : ∀ (j : Nat) (s : PlexSection), j < st.popped → regs[j]? = some s →
    (countOrd st.got j : Int) = s.number_of_items - s.failed_items

/-! # Theorems -/

/-! ## KillableThread: claim C7 -/

lemma KillableThread.step_preserves_canceled (t : KillableThread) (op : KillableThread.Op)
    (h : t._canceled = true) : (KillableThread.step t op)._canceled = true := by
  cases op <;>
    simp [KillableThread.step, KillableThread.cancel, KillableThread.suspend,
      KillableThread.resume, KillableThread.wait_while_suspended_enter,
      KillableThread.wait_while_suspended_exit, KillableThread.sleep_enter,
      KillableThread.sleep_exit, h]

lemma KillableThread.foldl_preserves_canceled (ops : List KillableThread.Op) :
    ∀ (t : KillableThread), t._canceled = true →
      (ops.foldl KillableThread.step t)._canceled = true := by
  induction ops with
  | nil => intro t h; simpa using h
  | cons op ops ih =>
      intro t h
      simpa using ih (KillableThread.step t op) (KillableThread.step_preserves_canceled t op h)

/-- C7: `cancel()` sets a sticky cancelled flag — after `cancel()`,
`should_cancel()` returns `True` and stays `True` under any further
sequence of control-interface calls — and it sets the not-suspended and
not-asleep events (unblocking `wait_while_suspended` and `sleep`);
a second `cancel()` leaves the control state unchanged. -/
theorem killableThread_cancel_spec :
    (∀ (t : KillableThread) (stop_pkc : Bool),
        (t.cancel).should_cancel stop_pkc = true) ∧
    (∀ (t : KillableThread) (ops : List KillableThread.Op) (stop_pkc : Bool),
        (ops.foldl KillableThread.step t.cancel)._canceled = true ∧
        (ops.foldl KillableThread.step t.cancel).should_cancel stop_pkc = true) ∧
    (∀ t : KillableThread,
        (t.cancel)._is_not_suspended = true ∧ (t.cancel)._is_not_asleep = true) ∧
    (∀ t : KillableThread, t.cancel.cancel = t.cancel) := by
  refine ⟨?_, ?_, ?_, ?_⟩
  · intro t stop_pkc
    simp [KillableThread.cancel, KillableThread.should_cancel]
  · intro t ops stop_pkc
    have h : (ops.foldl KillableThread.step t.cancel)._canceled = true :=
      KillableThread.foldl_preserves_canceled ops t.cancel
        (by simp [KillableThread.cancel])
    exact ⟨h, by simp [KillableThread.should_cancel, h]⟩
  · intro t
    simp [KillableThread.cancel]
  · intro t
    simp [KillableThread.cancel]

/-! ## Tasks.add: claim C6 (a code bug)

`Tasks.add` is meant to drop every finished/cancelled member, but the loop
`for t in self: if not t.isValid(): self.remove(t)` removes elements from
the list it is iterating over, so the element that slides into the removed
element's slot is skipped: of two consecutive invalid members the second
survives. -/

/-- C6 failing input: a group holding two cancelled tasks (ids 0 and 1);
`add`ing the fresh task id 2 removes the first cancelled member but keeps
the second, so a cancelled task other than the one just added remains in
the group, contradicting the claim. -/
theorem tasks_add_keeps_second_consecutive_invalid :
    Tasks.add
        [⟨0, 0, true, false⟩, ⟨1, 0, true, false⟩]
        ⟨2, 0, false, false⟩
      = [⟨1, 0, true, false⟩, ⟨2, 0, false, false⟩] ∧
    Task.isValid ⟨1, 0, true, false⟩ = false ∧
    (⟨1, 0, true, false⟩ : Task) ≠ ⟨2, 0, false, false⟩ := by
  refine ⟨by decide, by decide, by decide⟩

/-! ## ThreaderManager.reset: claim C10 -/

/-- C10: when `reset()` actually replaces the active generation (the
threader is not idle), it builds the fresh `BackgroundThreader` passing
only the name and `worker=self._workerhandler`: the replacement always has
the default 6 workers — whatever `worker_count` the manager was originally
configured with — while the worker class is forwarded. -/
theorem threaderManager_reset_uses_default_worker_count
    (m : ThreaderManager)
    (hbusy : m.threader._queue ≠ [] ∨ m.threader.hasTask = true) :
    (m.reset).threader.workers.length = BackgroundThreader.defaultWorkerCount ∧
    BackgroundThreader.defaultWorkerCount = 6 ∧
    (∀ wk ∈ (m.reset).threader.workers, wk.kind = m._workerhandler) ∧
    (m.reset).index = m.index + 1 ∧
    (m.reset).abandoned = m.abandoned ++ [m.threader.abortT] := by
  have hguard : ¬(m.threader._queue.isEmpty && !m.threader.hasTask) = true := by
    rcases hbusy with h | h
    · simp [List.isEmpty_iff, h]
    · simp [h]
  unfold ThreaderManager.reset
  rw [if_neg hguard]
  refine ⟨?_, rfl, ?_, rfl, rfl⟩
  · simp [BackgroundThreader.init]
  · intro wk hwk
    simp only [BackgroundThreader.init, List.mem_map, List.mem_range] at hwk
    obtain ⟨x, -, rfl⟩ := hwk
    rfl

/-- C10 witness: a manager configured with `worker_count = 2` that has one
queued task; after `reset()` the active generation has 6 workers. -/
theorem threaderManager_reset_uses_default_worker_count_witness :
    (((ThreaderManager.init .backgroundWorker 2).addTask
        ⟨0, 0, false, false⟩).reset).threader.workers.length
      = BackgroundThreader.defaultWorkerCount ∧
    BackgroundThreader.defaultWorkerCount = 6 :=
  ⟨(threaderManager_reset_uses_default_worker_count
      ((ThreaderManager.init .backgroundWorker 2).addTask ⟨0, 0, false, false⟩)
      (Or.inl (by decide))).1,
   rfl⟩

/-! ## ProcessingQueue.put misrouting: claim C8 -/

lemma ProcessingQueue.sectionIndex_eq_none {s : PlexSection} :
    ∀ {l : List PlexSection}, (∀ t ∈ l, t ≠ s) → ProcessingQueue.sectionIndex s l = none := by
  intro l
  induction l with
  | nil => intro _; rfl
  | cons t ts ih =>
      intro h
      have ht : t ≠ s := h t (List.mem_cons_self t ts)
      have hts : ∀ u ∈ ts, u ≠ s := fun u hu => h u (List.mem_cons_of_mem t hu)
      simp [ProcessingQueue.sectionIndex, ht, ih hts]

/-- C8: an item whose tagged section was never registered is never enqueued
anywhere — `put` never succeeds on it — and, whenever the call is not
already refused by the capacity check, it raises the
`RuntimeError('Could not find section for item ...')` right away. -/
theorem processingQueue_put_unregistered_section_error
    (q : ProcessingQueue) (item : PQItem) (p : Payload)
    (hp : item.payload = some p)
    (hunreg : ∀ s ∈ q.sections, s ≠ p.sect) :
    (∀ q', q.put item ≠ .ok q') ∧
    (¬(0 < q.maxsize ∧ q._qsize = q.maxsize) →
      q.put item = .sectionNotFound) := by
  have hidx : ProcessingQueue.sectionIndex p.sect q.sections = none :=
    ProcessingQueue.sectionIndex_eq_none hunreg
  have hput : q._put item = none := by
    simp [ProcessingQueue._put, hp, hidx]
  constructor
  · intro q'
    unfold ProcessingQueue.put
    by_cases hc : 0 < q.maxsize ∧ q._qsize = q.maxsize
    · rw [if_pos hc]; simp
    · rw [if_neg hc, hput]; simp
  · intro hc
    unfold ProcessingQueue.put
    rw [if_neg hc, hput]

/-- C8 witness: an empty unbounded queue refuses an item tagged with an
unregistered section. -/
theorem processingQueue_put_unregistered_section_error_witness :
    (ProcessingQueue.empty 0).put ⟨some 0, some ⟨⟨"movie", 3, 0, 7⟩, 0⟩⟩
      = .sectionNotFound :=
  (processingQueue_put_unregistered_section_error (ProcessingQueue.empty 0)
      ⟨some 0, some ⟨⟨"movie", 3, 0, 7⟩, 0⟩⟩ ⟨⟨"movie", 3, 0, 7⟩, 0⟩
      rfl (by intro s hs; simp [ProcessingQueue.empty] at hs)).2
    (by simp [ProcessingQueue.empty])

/-! ## ProcessingQueue.get projection: claim C9 -/

/-- C9: whatever `(index, payload)` tuple the current sub-queue delivers,
the public `get()` hands the consumer exactly the payload component
(`item[1]`) — the index is discarded before delivery. -/
theorem processingQueue_get_returns_payload_only
    (q : ProcessingQueue) (item : PQItem) (q' : ProcessingQueue)
    (h : q._get = some (item, q')) :
    q.get = some (item.payload, q') ∧
    (∀ (r : Option Payload) (q'' : ProcessingQueue), q.get = some (r, q'') →
      ∃ it : PQItem, q._get = some (it, q'') ∧ r = it.payload) := by
  constructor
  · simp [ProcessingQueue.get, h]
  · intro r q'' hr
    refine ⟨item, ?_, ?_⟩
    · simp [ProcessingQueue.get, h] at hr
      rw [h, hr.2]
    · simp [ProcessingQueue.get, h] at hr
      exact hr.1.symm

/-- C9 witness: a queue with one FIFO section holding the tuple
`(0, payload)`; `get()` returns the bare payload. -/
theorem processingQueue_get_returns_payload_only_witness :
    ProcessingQueue.get
        { sections := [⟨"movie", 2, 0, 0⟩]
          queues := [.fifo [⟨some 0, some ⟨⟨"movie", 2, 0, 0⟩, 5⟩⟩]]
          _counter := 0, maxsize := 0, unfinished_tasks := 1 }
      = some (some ⟨⟨"movie", 2, 0, 0⟩, 5⟩,
          { sections := [⟨"movie", 2, 0, 0⟩]
            queues := [.fifo []]
            _counter := 1, maxsize := 0, unfinished_tasks := 1 }) :=
  (processingQueue_get_returns_payload_only _ ⟨some 0, some ⟨⟨"movie", 2, 0, 0⟩, 5⟩⟩ _
      (by decide)).1

/-! ## ProcessingQueue.put capacity: claim C3 (corrected)

The capacity check of `put` compares `self._qsize()` — the size of the
*current* (active) sub-queue — against `maxsize`; it does not look at the
sub-queue the item is routed into. -/

/-- C3 counterexample: `maxsize = 1`; two FIFO sections are registered and
the first is active with an empty sub-queue; the sub-queue owning the
item (the second section's) already holds `maxsize` items, yet a further
`put` of an item tagged with the second section succeeds instead of
refusing. -/
theorem processingQueue_put_capacity_checks_current_queue :
    (run 1 [.addSection ⟨"movie", 9, 0, 1⟩, .addSection ⟨"movie", 5, 0, 2⟩,
            .put ⟨some 0, some ⟨⟨"movie", 5, 0, 2⟩, 0⟩⟩]).q.queues.map SubQueue.qsize
      = [0, 1] ∧
    (run 1 [.addSection ⟨"movie", 9, 0, 1⟩, .addSection ⟨"movie", 5, 0, 2⟩,
            .put ⟨some 0, some ⟨⟨"movie", 5, 0, 2⟩, 0⟩⟩]).q.maxsize = 1 ∧
    ProcessingQueue.sectionIndex ⟨"movie", 5, 0, 2⟩
        (run 1 [.addSection ⟨"movie", 9, 0, 1⟩, .addSection ⟨"movie", 5, 0, 2⟩,
                .put ⟨some 0, some ⟨⟨"movie", 5, 0, 2⟩, 0⟩⟩]).q.sections = some 1 ∧
    (run 1 [.addSection ⟨"movie", 9, 0, 1⟩, .addSection ⟨"movie", 5, 0, 2⟩,
            .put ⟨some 0, some ⟨⟨"movie", 5, 0, 2⟩, 0⟩⟩]).q.put
        ⟨some 1, some ⟨⟨"movie", 5, 0, 2⟩, 1⟩⟩
      ≠ .full := by
  refine ⟨by decide, by decide, by decide, by decide⟩

/-- C3 amended: with a positive `maxsize`, `put` refuses (blocks, or with
`block=False` raises `Full`) exactly when the *currently active* sub-queue
— not the sub-queue owning the item — holds `maxsize` items; the bound is
shared by producers regardless of which section their item targets, since
the check never looks at the item. -/
theorem processingQueue_put_full_iff_current_queue_at_maxsize
    (q : ProcessingQueue) (item : PQItem) :
    q.put item = .full ↔ (0 < q.maxsize ∧ q._qsize = q.maxsize) := by
  unfold ProcessingQueue.put
  by_cases hc : 0 < q.maxsize ∧ q._qsize = q.maxsize
  · rw [if_pos hc]; simpa using hc
  · rw [if_neg hc]
    constructor
    · intro h
      cases hput : q._put item with
      | none => rw [hput] at h; exact absurd h (by simp)
      | some r => rw [hput] at h; exact absurd h (by simp)
    · intro h; exact absurd h hc

/-! ## MutablePriorityQueue / BackgroundThreader: claim C5 -/

namespace MutablePriorityQueue

lemma _get_eq_none {q : List Task} : _get q = none ↔ q = [] := by
  cases q with
  | nil => simp [_get]
  | cons t ts =>
      simp only [_get]
      cases h : _get ts with
      | none => simp
      | some r =>
          rcases r with ⟨m, rest⟩
          by_cases hle : t.priority ≤ m.priority <;> simp [hle]

lemma _get_mem {q : List Task} {t : Task} {r : List Task}
    (h : _get q = some (t, r)) : t ∈ q := by
  induction q generalizing t r with
  | nil => simp [_get] at h
  | cons a ts ih =>
      cases hts : _get ts with
      | none =>
          simp only [_get, hts] at h
          simp at h
          simp [h.1]
      | some p =>
          rcases p with ⟨m, rest⟩
          simp only [_get, hts] at h
          by_cases hle : a.priority ≤ m.priority
          · rw [if_pos hle] at h
            simp at h
            simp [h.1]
          · rw [if_neg hle] at h
            simp at h
            exact List.mem_cons_of_mem a (ih (by rw [hts, h.1]))

lemma _get_min {q : List Task} {t : Task} {r : List Task}
    (h : _get q = some (t, r)) : ∀ b ∈ q, t.priority ≤ b.priority := by
  induction q generalizing t r with
  | nil => simp [_get] at h
  | cons a ts ih =>
      cases hts : _get ts with
      | none =>
          simp only [_get, hts] at h
          simp at h
          have : ts = [] := _get_eq_none.mp hts
          subst this
          intro b hb
          simp at hb
          simp [hb, h.1]
      | some p =>
          rcases p with ⟨m, rest⟩
          have hmin : ∀ b ∈ ts, m.priority ≤ b.priority := ih hts
          simp only [_get, hts] at h
          by_cases hle : a.priority ≤ m.priority
          · rw [if_pos hle] at h
            simp at h
            intro b hb
            rcases List.mem_cons.mp hb with hb | hb
            · simp [hb, h.1]
            · exact h.1 ▸ le_trans hle (hmin b hb)
          · rw [if_neg hle] at h
            simp at h
            intro b hb
            rcases List.mem_cons.mp hb with hb | hb
            · exact h.1 ▸ hb ▸ le_of_lt (lt_of_not_le hle)
            · exact h.1 ▸ hmin b hb

lemma _get_subset {q : List Task} {t : Task} {r : List Task}
    (h : _get q = some (t, r)) : ∀ b ∈ r, b ∈ q := by
  induction q generalizing t r with
  | nil => simp [_get] at h
  | cons a ts ih =>
      cases hts : _get ts with
      | none =>
          simp only [_get, hts] at h
          simp at h
          intro b hb
          rw [h.2] at hb
          simp at hb
      | some p =>
          rcases p with ⟨m, rest⟩
          simp only [_get, hts] at h
          by_cases hle : a.priority ≤ m.priority
          · rw [if_pos hle] at h
            simp at h
            rw [← h.2]
            intro b hb
            exact List.mem_cons_of_mem a hb
          · rw [if_neg hle] at h
            simp at h
            rw [← h.2]
            intro b hb
            rcases List.mem_cons.mp hb with hb | hb
            · simp [hb]
            · exact List.mem_cons_of_mem a (ih hts b hb)

lemma _get_length {q : List Task} {t : Task} {r : List Task}
    (h : _get q = some (t, r)) : q.length = r.length + 1 := by
  induction q generalizing t r with
  | nil => simp [_get] at h
  | cons a ts ih =>
      cases hts : _get ts with
      | none =>
          simp only [_get, hts] at h
          simp at h
          have : ts = [] := _get_eq_none.mp hts
          subst this
          rw [← h.2]
          simp
      | some p =>
          rcases p with ⟨m, rest⟩
          simp only [_get, hts] at h
          by_cases hle : a.priority ≤ m.priority
          · rw [if_pos hle] at h
            simp at h
            rw [← h.2]
            simp
          · rw [if_neg hle] at h
            simp at h
            rw [← h.2]
            simpa using ih hts

/-- When `a` sits strictly below every element of `q` and weakly below
every element of `rest`, the next served task of `q ++ a :: rest` is `a`. -/
lemma _get_append_min (q : List Task) (a : Task) (rest : List Task)
    (hq : ∀ b ∈ q, a.priority < b.priority)
    (hrest : ∀ b ∈ rest, a.priority ≤ b.priority) :
    _get (q ++ a :: rest) = some (a, q ++ rest) := by
  induction q with
  | nil =>
      cases hr : _get rest with
      | none =>
          have : rest = [] := _get_eq_none.mp hr
          subst this
          rfl
      | some p =>
          rcases p with ⟨m, rest'⟩
          have hm : m ∈ rest := _get_mem hr
          simp only [List.nil_append, _get, hr]
          rw [if_pos (hrest m hm)]
  | cons b q' ih =>
      have hq' : ∀ c ∈ q', a.priority < c.priority :=
        fun c hc => hq c (List.mem_cons_of_mem b hc)
      have hrec : _get (q' ++ a :: rest) = some (a, q' ++ rest) := ih hq'
      have hb : a.priority < b.priority := hq b (List.mem_cons_self b q')
      show _get (b :: (q' ++ a :: rest)) = some (a, b :: (q' ++ rest))
      simp only [_get, hrec]
      rw [if_neg (not_le.mpr hb)]

lemma drain_eq_cons {q : List Task} {t : Task} {r : List Task}
    (h : _get q = some (t, r)) : drain q = t :: drain r := by
  have hlen := _get_length h
  unfold drain
  rw [hlen]
  simp only [drainFuel, h]

/-- Tasks whose priorities lie strictly below everything in `q` and which
are mutually sorted are all served before anything of `q`, in their own
list order. -/
lemma drain_append (q : List Task) :
    ∀ newts : List Task,
      (∀ a ∈ newts, ∀ b ∈ q, a.priority < b.priority) →
      newts.Pairwise (fun a b => a.priority ≤ b.priority) →
      drain (q ++ newts) = newts ++ drain q := by
  intro newts
  induction newts generalizing q with
  | nil => intro _ _; simp
  | cons a ts ih =>
      intro hlt hsorted
      have hfirst : _get (q ++ a :: ts) = some (a, q ++ ts) :=
        _get_append_min q a ts
          (fun b hb => hlt a (List.mem_cons_self a ts) b hb)
          (List.pairwise_cons.mp hsorted).1
      rw [drain_eq_cons hfirst,
        ih q (fun c hc b hb => hlt c (List.mem_cons_of_mem a hc) b hb)
          (List.pairwise_cons.mp hsorted).2]
      rfl

lemma drainFuel_subset : ∀ (fuel : Nat) (q : List Task),
    ∀ b ∈ drainFuel fuel q, b ∈ q := by
  intro fuel
  induction fuel with
  | zero => intro q b hb; simp [drainFuel] at hb
  | succ f ih =>
      intro q b hb
      simp only [drainFuel] at hb
      cases hq : _get q with
      | none => rw [hq] at hb; simp at hb
      | some p =>
          rcases p with ⟨t, r⟩
          rw [hq] at hb
          rcases List.mem_cons.mp hb with hb | hb
          · exact hb ▸ _get_mem hq
          · exact _get_subset hq b (ih r b hb)

/-- Whatever the queue's content, successive `_get`s serve tasks in
non-decreasing priority order. -/
lemma drainFuel_sorted : ∀ (fuel : Nat) (q : List Task),
    (drainFuel fuel q).Pairwise (fun a b => a.priority ≤ b.priority) := by
  intro fuel
  induction fuel with
  | zero => intro q; simp [drainFuel]
  | succ f ih =>
      intro q
      simp only [drainFuel]
      cases hq : _get q with
      | none => simp
      | some p =>
          rcases p with ⟨t, r⟩
          refine List.pairwise_cons.mpr ⟨?_, ih r⟩
          intro b hb
          exact _get_min hq b (_get_subset hq b (drainFuel_subset f r b hb))

lemma drain_sorted (q : List Task) :
    (drain q).Pairwise (fun a b => a.priority ≤ b.priority) :=
  drainFuel_sorted q.length q

lemma lowest_min {q : List Task} {t : Task}
    (h : lowest q = some t) : ∀ b ∈ q, t.priority ≤ b.priority := by
  cases q with
  | nil => simp [lowest] at h
  | cons a ts =>
      simp only [lowest, Option.some_inj] at h
      subst h
      have key : ∀ (l : List Task) (acc : Task),
          (l.foldl (fun m b => if b.priority < m.priority then b else m) acc).priority
              ≤ acc.priority ∧
          ∀ b ∈ l,
            (l.foldl (fun m b => if b.priority < m.priority then b else m) acc).priority
              ≤ b.priority := by
        intro l
        induction l with
        | nil => intro acc; simp
        | cons c cs ihl =>
            intro acc
            simp only [List.foldl_cons]
            by_cases hc : c.priority < acc.priority
            · rw [if_pos hc]
              refine ⟨le_trans (ihl c).1 (le_of_lt hc), ?_⟩
              intro b hb
              rcases List.mem_cons.mp hb with hb | hb
              · exact hb ▸ (ihl c).1
              · exact (ihl c).2 b hb
            · rw [if_neg hc]
              refine ⟨(ihl acc).1, ?_⟩
              intro b hb
              rcases List.mem_cons.mp hb with hb | hb
              · exact hb ▸ le_trans (ihl acc).1 (le_of_not_lt hc)
              · exact (ihl acc).2 b hb
      intro b hb
      rcases List.mem_cons.mp hb with hb | hb
      · exact hb ▸ (key ts a).1
      · exact (key ts a).2 b hb

end MutablePriorityQueue

namespace BackgroundThreader

lemma assignFrom_map_id (ts : List Task) :
    ∀ p : Int, (assignFrom p ts).map Task.id = ts.map Task.id := by
  induction ts with
  | nil => intro p; rfl
  | cons t ts ih =>
      intro p
      simp only [assignFrom, List.map_cons, ih (p + 1)]

lemma assignFrom_mem_bounds (ts : List Task) :
    ∀ (p : Int) (a : Task), a ∈ assignFrom p ts →
      p ≤ a.priority ∧ a.priority < p + ts.length := by
  induction ts with
  | nil => intro p a ha; simp [assignFrom] at ha
  | cons t ts ih =>
      intro p a ha
      simp only [assignFrom, List.mem_cons] at ha
      rcases ha with ha | ha
      · subst ha
        constructor
        · simp
        · simp only [List.length_cons]
          have : (0 : Int) < (ts.length : Int) + 1 := by positivity
          push_cast
          linarith
      · have := ih (p + 1) a ha
        constructor
        · linarith [this.1]
        · have h2 := this.2
          simp only [List.length_cons]
          push_cast
          push_cast at h2
          linarith

lemma assignFrom_pairwise_lt (ts : List Task) :
    ∀ p : Int, (assignFrom p ts).Pairwise (fun a b => a.priority < b.priority) := by
  induction ts with
  | nil => intro p; simp [assignFrom]
  | cons t ts ih =>
      intro p
      simp only [assignFrom]
      refine List.pairwise_cons.mpr ⟨?_, ih (p + 1)⟩
      intro b hb
      have := (assignFrom_mem_bounds ts (p + 1) b hb).1
      simp only []
      linarith

end BackgroundThreader

/-- C5: with a non-empty queue whose first minimal-priority task is `t0`
(so the current minimum priority is `t0.priority`), `addTasksToFront`
appends the submitted tasks with priorities `t0.priority - len, ...,
t0.priority - 1`: all strictly below the minimum, in submission order
(ids preserved), and a consumer draining the queue is served all of them
before any previously queued task.  `addTask`/`addTasks` assign strictly
increasing priorities starting right above the monotone counter
`self.priority`, and draining always serves tasks in non-decreasing
priority order. -/
theorem backgroundThreader_priority_order
    (bt : BackgroundThreader) (ts : List Task) (t0 : Task)
    (hlow : MutablePriorityQueue.lowest bt._queue = some t0) :
    (bt.addTasksToFront ts)._queue
      = bt._queue ++ BackgroundThreader.assignFrom (t0.priority - ts.length) ts ∧
    (∀ a ∈ BackgroundThreader.assignFrom (t0.priority - ts.length) ts,
        a.priority < t0.priority) ∧
    MutablePriorityQueue.drain ((bt.addTasksToFront ts)._queue)
      = BackgroundThreader.assignFrom (t0.priority - ts.length) ts
          ++ MutablePriorityQueue.drain bt._queue ∧
    (∀ (p : Int) (ts' : List Task),
        (BackgroundThreader.assignFrom p ts').Pairwise
            (fun a b => a.priority < b.priority) ∧
        (BackgroundThreader.assignFrom p ts').map Task.id = ts'.map Task.id ∧
        ∀ a ∈ BackgroundThreader.assignFrom p ts', p ≤ a.priority) ∧
    ((bt.addTasks ts)._queue
        = bt._queue ++ BackgroundThreader.assignFrom (bt.priority + 1) ts ∧
      (bt.addTasks ts).priority = bt.priority + ts.length) ∧
    (∀ q : List Task,
        (MutablePriorityQueue.drain q).Pairwise
          (fun a b => a.priority ≤ b.priority)) := by
  have hqueue : (bt.addTasksToFront ts)._queue
      = bt._queue ++ BackgroundThreader.assignFrom (t0.priority - ts.length) ts := by
    simp [BackgroundThreader.addTasksToFront, BackgroundThreader.getLowestPrority, hlow]
  have hbelow : ∀ a ∈ BackgroundThreader.assignFrom (t0.priority - ts.length) ts,
      a.priority < t0.priority := by
    intro a ha
    have := (BackgroundThreader.assignFrom_mem_bounds ts _ a ha).2
    linarith [this]
  refine ⟨hqueue, hbelow, ?_, ?_, ⟨rfl, rfl⟩, MutablePriorityQueue.drain_sorted⟩
  · rw [hqueue]
    refine MutablePriorityQueue.drain_append bt._queue _ ?_ ?_
    · intro a ha b hb
      exact lt_of_lt_of_le (hbelow a ha) (MutablePriorityQueue.lowest_min hlow b hb)
    · exact (BackgroundThreader.assignFrom_pairwise_lt ts _).imp le_of_lt
  · intro p ts'
    exact ⟨BackgroundThreader.assignFrom_pairwise_lt ts' p,
      BackgroundThreader.assignFrom_map_id ts' p,
      fun a ha => (BackgroundThreader.assignFrom_mem_bounds ts' p a ha).1⟩

/-- C5 witness: queue holding one task of priority 5; two tasks pushed to
the front get priorities 3 and 4 and are drained first, in order. -/
theorem backgroundThreader_priority_order_witness :
    MutablePriorityQueue.drain
        (((⟨"0", [⟨7, 5, false, false⟩], false, 5, []⟩ : BackgroundThreader).addTasksToFront
            [⟨8, 0, false, false⟩, ⟨9, 0, false, false⟩])._queue)
      = BackgroundThreader.assignFrom
            ((⟨7, 5, false, false⟩ : Task).priority
              - ([⟨8, 0, false, false⟩, ⟨9, 0, false, false⟩] : List Task).length)
            [⟨8, 0, false, false⟩, ⟨9, 0, false, false⟩]
          ++ MutablePriorityQueue.drain [⟨7, 5, false, false⟩] ∧
    BackgroundThreader.assignFrom
        ((⟨7, 5, false, false⟩ : Task).priority
          - ([⟨8, 0, false, false⟩, ⟨9, 0, false, false⟩] : List Task).length)
        [⟨8, 0, false, false⟩, ⟨9, 0, false, false⟩]
      = [⟨8, 3, false, false⟩, ⟨9, 4, false, false⟩] :=
  ⟨(backgroundThreader_priority_order
      ⟨"0", [⟨7, 5, false, false⟩], false, 5, []⟩
      [⟨8, 0, false, false⟩, ⟨9, 0, false, false⟩]
      ⟨7, 5, false, false⟩ (by decide)).2.2.1,
   by decide⟩

/-! ## ProcessingQueue trace invariant: helper lemmas -/

lemma ProcessingQueue.listModify_length (f : SubQueue → SubQueue) :
    ∀ (i : Nat) (l : List SubQueue), (ProcessingQueue.listModify f i l).length = l.length := by
  intro i l
  induction l generalizing i with
  | nil => cases i <;> rfl
  | cons x xs ih => cases i with
      | zero => rfl
      | succ i => simpa [ProcessingQueue.listModify] using ih i

lemma ProcessingQueue.listModify_getElem?_ne (f : SubQueue → SubQueue) :
    ∀ (i : Nat) (l : List SubQueue) (j : Nat), i ≠ j →
      (ProcessingQueue.listModify f i l)[j]? = l[j]? := by
  intro i l
  induction l generalizing i with
  | nil => intro j _; cases i <;> rfl
  | cons x xs ih =>
      intro j hij
      cases i with
      | zero =>
          cases j with
          | zero => exact absurd rfl hij
          | succ j => simp [ProcessingQueue.listModify]
      | succ i =>
          cases j with
          | zero => simp [ProcessingQueue.listModify]
          | succ j => simpa [ProcessingQueue.listModify] using ih i j (by omega)

lemma ProcessingQueue.listModify_getElem?_self (f : SubQueue → SubQueue) :
    ∀ (i : Nat) (l : List SubQueue),
      (ProcessingQueue.listModify f i l)[i]? = l[i]?.map f := by
  intro i l
  induction l generalizing i with
  | nil => cases i <;> rfl
  | cons x xs ih => cases i with
      | zero => simp [ProcessingQueue.listModify]
      | succ i => simpa [ProcessingQueue.listModify] using ih i

lemma ProcessingQueue.listModify_append_last (f : SubQueue → SubQueue)
    (l : List SubQueue) (x : SubQueue) :
    ProcessingQueue.listModify f l.length (l ++ [x]) = l ++ [f x] := by
  induction l with
  | nil => rfl
  | cons y ys ih => simpa [ProcessingQueue.listModify] using ih

lemma SubQueue.push_ordered_iff (x : PQItem) (sq : SubQueue) :
    (∃ h ni, sq.push x = .ordered h ni) ↔ (∃ h ni, sq = .ordered h ni) := by
  cases sq <;> simp [SubQueue.push]

lemma entriesOrd_append (got : List GotEntry) (e : GotEntry) (j : Nat) :
    entriesOrd (got ++ [e]) j
      = entriesOrd got j ++ (if e.ordinal = j then [e] else []) := by
  unfold entriesOrd
  rw [List.filter_append]
  by_cases h : e.ordinal = j <;> simp [h]

lemma countOrd_append_self (got : List GotEntry) (it : PQItem) (j : Nat) :
    countOrd (got ++ [⟨j, it⟩]) j = countOrd got j + 1 := by
  unfold countOrd
  rw [List.filter_append]
  simp

lemma entriesOrd_append_ne (got : List GotEntry) (e : GotEntry) (j : Nat)
    (h : e.ordinal ≠ j) : entriesOrd (got ++ [e]) j = entriesOrd got j := by
  rw [entriesOrd_append, if_neg h, List.append_nil]

lemma countOrd_append_ne (got : List GotEntry) (e : GotEntry) (j : Nat)
    (h : e.ordinal ≠ j) : countOrd (got ++ [e]) j = countOrd got j := by
  unfold countOrd
  have := entriesOrd_append_ne got e j h
  unfold entriesOrd at this
  rw [this]

lemma entriesOrd_eq_nil (got : List GotEntry) (j : Nat)
    (h : ∀ e ∈ got, e.ordinal ≠ j) : entriesOrd got j = [] := by
  unfold entriesOrd
  exact List.filter_eq_nil_iff.mpr (by simpa using h)

lemma countOrd_eq_zero (got : List GotEntry) (j : Nat)
    (h : ∀ e ∈ got, e.ordinal ≠ j) : countOrd got j = 0 := by
  unfold countOrd
  have := entriesOrd_eq_nil got j h
  unfold entriesOrd at this
  simp [this]

lemma idxRange_succ (n : Nat) :
    idxRange (n + 1) = idxRange n ++ [some (n : Int)] := by
  unfold idxRange
  rw [List.range_succ, List.map_append]
  rfl

lemma idxRange_zero : idxRange 0 = [] := rfl

lemma got_mono_append (got : List GotEntry) (e : GotEntry)
    (hmono : got.Pairwise (fun a b => a.ordinal ≤ b.ordinal))
    (hle : ∀ a ∈ got, a.ordinal ≤ e.ordinal) :
    (got ++ [e]).Pairwise (fun a b => a.ordinal ≤ b.ordinal) :=
  List.pairwise_append.mpr ⟨hmono, List.pairwise_singleton _ e, by simpa using hle⟩

lemma getElem?_append_lt {α : Type} (l1 l2 : List α) (n : Nat) (h : n < l1.length) :
    (l1 ++ l2)[n]? = l1[n]? := by
  rw [List.getElem?_append]
  rw [if_pos h]

lemma getElem?_append_ge {α : Type} (l1 l2 : List α) (n : Nat) (h : l1.length ≤ n) :
    (l1 ++ l2)[n]? = l2[n - l1.length]? := by
  rw [List.getElem?_append]
  rw [if_neg (by omega)]

lemma getElem?_singleton {α : Type} (x y : α) (k : Nat)
    (h : ([x] : List α)[k]? = some y) : k = 0 ∧ y = x := by
  cases k with
  | zero => simp at h; exact ⟨rfl, h.symm⟩
  | succ k => simp at h

/-- Registering a section (`add_section`, or `put_sentinel` which also
pushes the terminator tuple into the freshly appended sub-queue) preserves
the invariant, for any fresh sub-queue whose kind matches the section's
`plex_type` and whose `next_index` (when ordered) is `0`. -/
lemma inv_append_section {regs : List PlexSection} {st : RunState}
    (hInv : Inv regs st) (s : PlexSection) (newq : SubQueue) (u : Nat)
    (hkind : s.plex_type = PLEX_TYPE_ALBUM ↔ ∃ h ni, newq = .ordered h ni)
    (hni : ∀ (h : List PQItem) (ni : Int), newq = .ordered h ni → ni = 0) :
    Inv (regs ++ [s])
      { st with q := { st.q with
          sections := st.q.sections ++ [s]
          queues := st.q.queues ++ [newq]
          unfinished_tasks := u } } := by
  obtain ⟨popped_le, secs_eq, len_eq, kinds, ord_le, ord_lt, mono, counter_empty,
    counter_eq, ordered_ni, fresh_ni, album_idx, drained⟩ := hInv
  have hcnt0 : st.q.sections = [] → countOrd st.got st.popped = 0 := fun hsec =>
    countOrd_eq_zero _ _ (fun e he => Nat.ne_of_lt (ord_lt hsec e he))
  refine ⟨?_, ?_, ?_, ?_, ?_, ?_, ?_, ?_, ?_, ?_, ?_, ?_, ?_⟩
  · simp only [List.length_append, List.length_cons, List.length_nil]
    omega
  · simp only []
    rw [List.drop_append_of_le_length popped_le, secs_eq]
  · simp [len_eq]
  · intro i sq sec hsq hsec
    simp only [] at hsq hsec
    by_cases hi : i < st.q.queues.length
    · rw [getElem?_append_lt _ _ _ hi] at hsq
      rw [getElem?_append_lt _ _ _ (len_eq ▸ hi)] at hsec
      exact kinds i sq sec hsq hsec
    · rw [getElem?_append_ge _ _ _ (by omega)] at hsq
      rw [getElem?_append_ge _ _ _ (by omega : st.q.sections.length ≤ i)] at hsec
      obtain ⟨-, rfl⟩ := getElem?_singleton _ _ _ hsq
      obtain ⟨-, rfl⟩ := getElem?_singleton _ _ _ hsec
      exact hkind
  · exact ord_le
  · intro h
    exact absurd h (by simp)
  · exact mono
  · intro h
    exact absurd h (by simp)
  · intro _
    by_cases hsec : st.q.sections = []
    · simp only []
      rw [counter_empty hsec, hcnt0 hsec]
      simp
    · exact counter_eq hsec
  · intro h ni hhead
    simp only [] at hhead
    cases hq : st.q.queues with
    | nil =>
        rw [hq] at hhead
        simp at hhead
        have hsec : st.q.sections = [] := by
          have := len_eq
          rw [hq] at this
          exact List.eq_nil_of_length_eq_zero this.symm
        rw [hni h ni hhead, hcnt0 hsec]
        simp
    | cons qq qs =>
        rw [hq] at hhead
        simp at hhead
        exact ordered_ni h ni (by rw [hq]; simpa using hhead)
  · intro i h ni hi hsq
    simp only [] at hsq
    by_cases hlt : i < st.q.queues.length
    · rw [getElem?_append_lt _ _ _ hlt] at hsq
      exact fresh_ni i h ni hi hsq
    · rw [getElem?_append_ge _ _ _ (by omega)] at hsq
      obtain ⟨-, heq⟩ := getElem?_singleton _ _ _ hsq
      exact hni h ni heq.symm
  · intro j s0 hj halb
    by_cases hjlt : j < regs.length
    · rw [getElem?_append_lt _ _ _ hjlt] at hj
      exact album_idx j s0 hj halb
    · rw [getElem?_append_ge _ _ _ (by omega)] at hj
      obtain ⟨hj0, rfl⟩ := getElem?_singleton _ _ _ hj
      have hjeq : j = regs.length := by omega
      have hne : ∀ e ∈ st.got, e.ordinal ≠ j := by
        intro e he heq
        have h1 : e.ordinal ≤ st.popped := ord_le e he
        have h2 : st.popped = j := by omega
        have hsec : st.q.sections = [] := by
          rw [secs_eq, h2, hjeq]
          exact List.drop_length regs
        exact absurd heq (Nat.ne_of_lt (h2 ▸ ord_lt hsec e he))
      rw [entriesOrd_eq_nil _ _ hne, countOrd_eq_zero _ _ hne]
      simp [idxRange]
  · intro j s0 hjP hj
    have hjP' : j < st.popped := hjP
    rw [getElem?_append_lt _ _ _ (by omega)] at hj
    exact drained j s0 hjP' hj

lemma inv_addSection {regs : List PlexSection} {st : RunState}
    (hInv : Inv regs st) (s : PlexSection) :
    Inv (regs ++ [s]) (stepOp st (.addSection s)) := by
  have hstep : stepOp st (.addSection s)
      = { st with q := { st.q with
            sections := st.q.sections ++ [s]
            queues := st.q.queues ++
              [if s.plex_type = PLEX_TYPE_ALBUM then .ordered [] 0 else .fifo []]
            unfinished_tasks := st.q.unfinished_tasks } } := rfl
  rw [hstep]
  refine inv_append_section hInv s _ _ ?_ ?_
  · by_cases halb : s.plex_type = PLEX_TYPE_ALBUM
    · rw [if_pos halb]
      simp [halb]
    · rw [if_neg halb]
      simp [halb]
  · intro h ni heq
    by_cases halb : s.plex_type = PLEX_TYPE_ALBUM
    · rw [if_pos halb] at heq
      exact (SubQueue.ordered.injEq .. ▸ heq).2.symm
    · rw [if_neg halb] at heq
      exact absurd heq (by simp)

lemma inv_putSentinel {regs : List PlexSection} {st : RunState}
    (hInv : Inv regs st) (s : PlexSection) :
    Inv (regs ++ [{ s with number_of_items := 1, failed_items := 0 }])
      (stepOp st (.putSentinel s)) := by
  set s' : PlexSection := { s with number_of_items := 1, failed_items := 0 } with hs'
  set newq : SubQueue :=
    if s'.plex_type = PLEX_TYPE_ALBUM then .ordered [] 0 else .fifo [] with hnewq
  have hlm : ProcessingQueue.listModify (SubQueue.push ⟨none, none⟩)
        ((st.q.queues ++ [newq]).length - 1) (st.q.queues ++ [newq])
      = st.q.queues ++ [newq.push ⟨none, none⟩] := by
    have hlen : (st.q.queues ++ [newq]).length - 1 = st.q.queues.length := by simp
    rw [hlen, ProcessingQueue.listModify_append_last]
  have hstep : stepOp st (.putSentinel s)
      = { st with q := { st.q with
            sections := st.q.sections ++ [s']
            queues := st.q.queues ++ [newq.push ⟨none, none⟩]
            unfinished_tasks := st.q.unfinished_tasks + 1 } } := by
    show { st with q := st.q.put_sentinel s } = _
    unfold ProcessingQueue.put_sentinel ProcessingQueue._add_section
    simp only [← hs', ← hnewq, hlm]
  rw [hstep]
  refine inv_append_section hInv s' _ _ ?_ ?_
  · by_cases halb : s'.plex_type = PLEX_TYPE_ALBUM
    · rw [hnewq, if_pos halb]
      constructor
      · intro _
        exact ⟨heapInsert ⟨none, none⟩ [], 0, rfl⟩
      · intro _
        exact halb
    · rw [hnewq, if_neg halb]
      constructor
      · intro hh
        exact absurd hh halb
      · rintro ⟨h, ni, hcontra⟩
        simp [SubQueue.push] at hcontra
  · intro h ni heq
    by_cases halb : s'.plex_type = PLEX_TYPE_ALBUM
    · rw [hnewq, if_pos halb] at heq
      simp [SubQueue.push, heapInsert] at heq
      exact heq.2.symm
    · rw [hnewq, if_neg halb] at heq
      exact absurd heq (by simp [SubQueue.push])

lemma put_ok_inversion {q : ProcessingQueue} {item : PQItem} {q' : ProcessingQueue}
    (h : q.put item = .ok q') :
    ∃ (i : Nat) (p : Payload), item.payload = some p ∧
      ProcessingQueue.sectionIndex p.sect q.sections = some i ∧
      q' = { q with
        queues := ProcessingQueue.listModify (SubQueue.push item) i q.queues
        unfinished_tasks := q.unfinished_tasks + 1 } := by
  by_cases hc : 0 < q.maxsize ∧ q._qsize = q.maxsize
  · unfold ProcessingQueue.put at h
    rw [if_pos hc] at h
    exact absurd h (by simp)
  · cases hp : item.payload with
    | none =>
        unfold ProcessingQueue.put ProcessingQueue._put at h
        rw [if_neg hc] at h
        simp only [hp] at h
        exact absurd h (by simp)
    | some p =>
        cases hidx : ProcessingQueue.sectionIndex p.sect q.sections with
        | none =>
            unfold ProcessingQueue.put ProcessingQueue._put at h
            rw [if_neg hc] at h
            simp only [hp, hidx] at h
            exact absurd h (by simp)
        | some i =>
            unfold ProcessingQueue.put ProcessingQueue._put at h
            rw [if_neg hc] at h
            simp only [hp, hidx] at h
            simp at h
            exact ⟨i, p, rfl, hidx, h.symm⟩

lemma push_eq_ordered {x : PQItem} {sq : SubQueue} {h : List PQItem} {ni : Int}
    (heq : sq.push x = .ordered h ni) : ∃ h0, sq = .ordered h0 ni := by
  cases sq with
  | fifo l => simp [SubQueue.push] at heq
  | ordered l n =>
      simp [SubQueue.push] at heq
      exact ⟨l, by rw [heq.2]⟩

lemma inv_put {regs : List PlexSection} {st : RunState}
    (hInv : Inv regs st) (item : PQItem) : Inv regs (stepOp st (.put item)) := by
  cases hput : st.q.put item with
  | full => simpa [stepOp, hput] using hInv
  | sectionNotFound => simpa [stepOp, hput] using hInv
  | ok q' =>
      obtain ⟨i, p, hp, hidx, rfl⟩ := put_ok_inversion hput
      obtain ⟨popped_le, secs_eq, len_eq, kinds, ord_le, ord_lt, mono, counter_empty,
        counter_eq, ordered_ni, fresh_ni, album_idx, drained⟩ := hInv
      have hstep : stepOp st (.put item)
          = { st with q := { st.q with
                queues := ProcessingQueue.listModify (SubQueue.push item) i st.q.queues
                unfinished_tasks := st.q.unfinished_tasks + 1 } } := by
        simp [stepOp, hput]
      rw [hstep]
      refine ⟨popped_le, secs_eq, ?_, ?_, ord_le, ord_lt, mono, counter_empty,
        counter_eq, ?_, ?_, album_idx, drained⟩
      · simpa [ProcessingQueue.listModify_length] using len_eq
      · intro k sq sec hsq hsec
        simp only [] at hsq hsec
        by_cases hk : i = k
        · subst hk
          rw [ProcessingQueue.listModify_getElem?_self] at hsq
          cases hq0 : st.q.queues[i]? with
          | none => rw [hq0] at hsq; simp at hsq
          | some sq0 =>
              rw [hq0] at hsq
              simp at hsq
              rw [← hsq]
              rw [SubQueue.push_ordered_iff]
              exact kinds i sq0 sec hq0 hsec
        · rw [ProcessingQueue.listModify_getElem?_ne _ _ _ _ hk] at hsq
          exact kinds k sq sec hsq hsec
      · intro h ni hhead
        simp only [] at hhead
        rw [List.head?_eq_getElem?] at hhead
        by_cases hi : i = 0
        · subst hi
          rw [ProcessingQueue.listModify_getElem?_self] at hhead
          cases hq0 : st.q.queues[0]? with
          | none => rw [hq0] at hhead; simp at hhead
          | some sq0 =>
              rw [hq0] at hhead
              simp at hhead
              obtain ⟨h0, hsq0⟩ := push_eq_ordered hhead
              exact ordered_ni h0 ni (by rw [List.head?_eq_getElem?, hq0, hsq0])
        · rw [ProcessingQueue.listModify_getElem?_ne _ _ _ _ hi] at hhead
          exact ordered_ni h ni (by rw [List.head?_eq_getElem?]; exact hhead)
      · intro k h ni hk hsq
        simp only [] at hsq
        by_cases hik : i = k
        · subst hik
          rw [ProcessingQueue.listModify_getElem?_self] at hsq
          cases hq0 : st.q.queues[i]? with
          | none => rw [hq0] at hsq; simp at hsq
          | some sq0 =>
              rw [hq0] at hsq
              simp at hsq
              obtain ⟨h0, hsq0⟩ := push_eq_ordered hsq
              exact fresh_ni i h0 ni hk (hsq0 ▸ hq0)
        · rw [ProcessingQueue.listModify_getElem?_ne _ _ _ _ hik] at hsq
          exact fresh_ni k h ni hk hsq

lemma inv_get {regs : List PlexSection} {st : RunState}
    (hInv : Inv regs st) : Inv regs (stepOp st .get) := by
  cases hget : st.q._get with
  | none => simpa [stepOp, hget] using hInv
  | some r =>
    obtain ⟨item, q'⟩ := r
    have hstep : stepOp st .get
        = { q := q'
            popped := st.popped + (st.q.sections.length - q'.sections.length)
            got := st.got ++ [⟨st.popped, item⟩] } := by
      simp [stepOp, hget]
    rw [hstep]
    obtain ⟨popped_le, secs_eq, len_eq, kinds, ord_le, ord_lt, mono, counter_empty,
      counter_eq, ordered_ni, fresh_ni, album_idx, drained⟩ := hInv
    cases hsec : st.q.sections with
    | nil =>
        simp only [ProcessingQueue._get, hsec] at hget
        cases hget
    | cons s srest =>
    cases hque : st.q.queues with
    | nil =>
        simp only [ProcessingQueue._get, hsec, hque] at hget
        cases hget
    | cons sq qrest =>
    simp only [ProcessingQueue._get, hsec, hque] at hget
    have hs0 : regs[st.popped]? = some s := by
      rw [← List.head?_drop, ← secs_eq, hsec]
      rfl
    have hPlt : st.popped < regs.length := by
      by_contra hc
      have : regs.drop st.popped = [] := List.drop_eq_nil_of_le (by omega)
      rw [← secs_eq, hsec] at this
      cases this
    have hq0 : st.q.queues[0]? = some sq := by rw [hque]; simp
    have hs0' : st.q.sections[0]? = some s := by rw [hsec]; simp
    have kinds0 : s.plex_type = PLEX_TYPE_ALBUM ↔ ∃ h ni, sq = .ordered h ni :=
      kinds 0 sq s hq0 hs0'
    have hnonnil : st.q.sections ≠ [] := by rw [hsec]; simp
    have hcnt : st.q._counter = (countOrd st.got st.popped : Int) := counter_eq hnonnil
    cases hpop : sq.pop with
    | none =>
        simp only [hpop] at hget
        cases hget
    | some pr =>
    obtain ⟨it0, sq'⟩ := pr
    simp only [hpop] at hget
    have hfacts :
        ((∃ h ni, sq' = .ordered h ni) ↔ (∃ h ni, sq = .ordered h ni)) ∧
        (∀ (h' : List PQItem) (ni' : Int), sq' = .ordered h' ni' →
            ni' = (countOrd st.got st.popped : Int) + 1) ∧
        (s.plex_type = PLEX_TYPE_ALBUM →
            it0.index = some (countOrd st.got st.popped : Int)) := by
      cases sq with
      | fifo l =>
          cases l with
          | nil => cases hpop
          | cons x xs =>
              simp only [SubQueue.pop, Option.some_inj, Prod.mk.injEq] at hpop
              obtain ⟨rfl, rfl⟩ := hpop
              refine ⟨by simp, by simp, ?_⟩
              intro halb
              obtain ⟨h, ni, hcontra⟩ := kinds0.mp halb
              cases hcontra
      | ordered hp ni =>
          cases hp with
          | nil => cases hpop
          | cons x xs =>
              by_cases hidx : x.index = some ni
              · simp only [SubQueue.pop] at hpop
                rw [if_pos hidx] at hpop
                simp only [Option.some_inj, Prod.mk.injEq] at hpop
                obtain ⟨hx, hsq'⟩ := hpop
                have hni_eq : ni = (countOrd st.got st.popped : Int) :=
                  ordered_ni (x :: xs) ni (by rw [List.head?_eq_getElem?, hq0])
                refine ⟨?_, ?_, ?_⟩
                · constructor
                  · intro _
                    exact ⟨x :: xs, ni, rfl⟩
                  · intro _
                    exact ⟨xs, ni + 1, hsq'.symm⟩
                · intro h' ni' he
                  obtain ⟨-, h4⟩ := SubQueue.ordered.inj (hsq'.trans he)
                  rw [← h4, hni_eq]
                · intro _
                  rw [← hx, hidx, hni_eq]
              · simp only [SubQueue.pop] at hpop
                rw [if_neg hidx] at hpop
                cases hpop
    obtain ⟨hkind_pres, hni_pres, hidx_album⟩ := hfacts
    -- facts about the got list extended with the new entry
    have hord_le' : ∀ e ∈ st.got ++ [(⟨st.popped, item⟩ : GotEntry)],
        e.ordinal ≤ st.popped := by
      intro e he
      rcases List.mem_append.mp he with he | he
      · exact ord_le e he
      · simp at he
        rw [he]
    have hmono' : (st.got ++ [(⟨st.popped, item⟩ : GotEntry)]).Pairwise
        (fun a b => a.ordinal ≤ b.ordinal) :=
      got_mono_append _ _ mono (fun a ha => ord_le a ha)
    have halbum_new : ∀ (j : Nat) (s0 : PlexSection), regs[j]? = some s0 →
        s0.plex_type = PLEX_TYPE_ALBUM →
        (entriesOrd (st.got ++ [⟨st.popped, item⟩]) j).map (fun e => e.item.index)
          = idxRange (countOrd (st.got ++ [⟨st.popped, item⟩]) j) := by
      intro j s0 hj halb
      by_cases hjP : (⟨st.popped, item⟩ : GotEntry).ordinal = j
      · simp only [] at hjP
        subst hjP
        have hseq : s0 = s := by
          rw [hs0] at hj
          exact (Option.some_inj.mp hj).symm
        have halb' : s.plex_type = PLEX_TYPE_ALBUM := by
          rw [← hseq]
          exact halb
        have hitem : item.index = some (countOrd st.got st.popped : Int) := by
          have h1 : it0 = item := by
            by_cases hadv : st.q._counter + 1 = s.number_of_items - s.failed_items
            · rw [if_pos hadv] at hget
              exact (Prod.mk.injEq .. ▸ Option.some_inj.mp hget).1
            · rw [if_neg hadv] at hget
              exact (Prod.mk.injEq .. ▸ Option.some_inj.mp hget).1
          rw [← h1]
          exact hidx_album halb'
        rw [entriesOrd_append, if_pos rfl, countOrd_append_self, List.map_append,
          album_idx st.popped s hs0 halb', idxRange_succ]
        simp [hitem]
      · rw [entriesOrd_append_ne _ _ _ hjP, countOrd_append_ne _ _ _ hjP]
        exact album_idx j s0 hj halb
    by_cases hadv : st.q._counter + 1 = s.number_of_items - s.failed_items
    · -- the section is exhausted: advance to the next registered section
      rw [if_pos hadv] at hget
      rw [Option.some_inj] at hget
      obtain ⟨rfl, rfl⟩ := Prod.mk.injEq .. ▸ hget
      show Inv regs
        { q := { sections := srest
                 queues := qrest
                 _counter := 0
                 maxsize := st.q.maxsize
                 unfinished_tasks := st.q.unfinished_tasks }
          popped := st.popped + ((s :: srest).length - srest.length)
          got := st.got ++ [⟨st.popped, it0⟩] }
      have hlen1 : st.popped + ((s :: srest).length - srest.length)
          = st.popped + 1 := by
        simp
      rw [hlen1]
      refine ⟨show st.popped + 1 ≤ regs.length by omega, ?_, ?_, ?_, ?_, ?_, hmono',
        fun _ => rfl, ?_, ?_, ?_, ?_, ?_⟩
      · show srest = regs.drop (st.popped + 1)
        rw [← List.tail_drop, ← secs_eq, hsec]
        rfl
      · show qrest.length = srest.length
        have := len_eq
        rw [hque, hsec] at this
        simpa using this
      · intro i sq2 sec2 hsq2 hsec2
        refine kinds (i + 1) sq2 sec2 ?_ ?_
        · rw [hque]
          simpa using hsq2
        · rw [hsec]
          simpa using hsec2
      · intro e he
        exact le_trans (hord_le' e he) (Nat.le_succ _)
      · intro _ e he
        exact lt_of_le_of_lt (hord_le' e he) (Nat.lt_succ_self _)
      · intro _
        show (0 : Int) = (countOrd (st.got ++ [⟨st.popped, it0⟩]) (st.popped + 1) : Int)
        rw [countOrd_eq_zero _ _ (fun e he => by
          have := hord_le' e he
          omega)]
        simp
      · intro h2 ni2 hhead
        show ni2 = (countOrd (st.got ++ [⟨st.popped, it0⟩]) (st.popped + 1) : Int)
        have h1 : st.q.queues[1]? = some (.ordered h2 ni2) := by
          rw [hque]
          rw [List.head?_eq_getElem?] at hhead
          simpa using hhead
        have := fresh_ni 1 h2 ni2 (by omega) h1
        rw [this, countOrd_eq_zero _ _ (fun e he => by
          have := hord_le' e he
          omega)]
        simp
      · intro i h2 ni2 hi hsq2
        refine fresh_ni (i + 1) h2 ni2 (by omega) ?_
        rw [hque]
        simpa using hsq2
      · exact halbum_new
      · intro j s0 hjP1 hj
        by_cases hjP : j = st.popped
        · subst hjP
          rw [hs0] at hj
          obtain rfl := Option.some_inj.mp hj
          show (countOrd (st.got ++ [⟨st.popped, it0⟩]) st.popped : Int)
              = s.number_of_items - s.failed_items
          rw [countOrd_append_self]
          rw [← hadv, hcnt]
          push_cast
          ring
        · have hjlt : j < st.popped := by
            have h5 : j < st.popped + 1 := hjP1
            omega
          rw [countOrd_append_ne _ _ _ (by simpa using Ne.symm hjP)]
          exact drained j s0 hjlt hj
    · -- the section is not exhausted yet: stay, bump the counter
      rw [if_neg hadv] at hget
      rw [Option.some_inj] at hget
      obtain ⟨rfl, rfl⟩ := Prod.mk.injEq .. ▸ hget
      show Inv regs
        { q := { sections := s :: srest
                 queues := sq' :: qrest
                 _counter := st.q._counter + 1
                 maxsize := st.q.maxsize
                 unfinished_tasks := st.q.unfinished_tasks }
          popped := st.popped + ((s :: srest).length - (s :: srest).length)
          got := st.got ++ [⟨st.popped, it0⟩] }
      have hlen0 : st.popped + ((s :: srest).length - (s :: srest).length)
          = st.popped := by
        simp
      rw [hlen0]
      refine ⟨popped_le, ?_, ?_, ?_, hord_le', ?_, hmono', ?_, ?_, ?_, ?_, ?_, ?_⟩
      · show s :: srest = regs.drop st.popped
        rw [← hsec]
        exact secs_eq
      · show (sq' :: qrest).length = (s :: srest).length
        have := len_eq
        rw [hque, hsec] at this
        simpa using this
      · intro i sq2 sec2 hsq2 hsec2
        cases i with
        | zero =>
            have hsq2' : sq' = sq2 := by simpa using hsq2
            have hsec2' : s = sec2 := by simpa using hsec2
            subst hsq2'
            subst hsec2'
            rw [kinds0]
            exact hkind_pres.symm
        | succ i =>
            refine kinds (i + 1) sq2 sec2 ?_ ?_
            · rw [hque]
              simpa using hsq2
            · rw [hsec]
              simpa using hsec2
      · intro h
        simp at h
      · intro h
        simp at h
      · intro _
        show st.q._counter + 1
            = (countOrd (st.got ++ [⟨st.popped, it0⟩]) st.popped : Int)
        rw [countOrd_append_self, hcnt]
        push_cast
        ring
      · intro h2 ni2 hhead
        have hsq2 : sq' = .ordered h2 ni2 := by
          rw [List.head?_eq_getElem?] at hhead
          simpa using hhead
        rw [hni_pres h2 ni2 hsq2, countOrd_append_self]
        push_cast
        ring
      · intro i h2 ni2 hi hsq2
        cases i with
        | zero => omega
        | succ i =>
            refine fresh_ni (i + 1) h2 ni2 (by omega) ?_
            rw [hque]
            simpa using hsq2
      · exact halbum_new
      · intro j s0 hjlt hj
        rw [countOrd_append_ne _ _ _ (by simpa using (Nat.ne_of_lt hjlt).symm)]
        exact drained j s0 hjlt hj

lemma registered_append (l1 l2 : List PQOp) :
    registered (l1 ++ l2) = registered l1 ++ registered l2 := by
  induction l1 with
  | nil => rfl
  | cons op ops ih => cases op <;> simp [registered, ih]

lemma inv_init (maxsize : Nat) : Inv [] (RunState.initState maxsize) := by
  refine ⟨?_, ?_, ?_, ?_, ?_, ?_, ?_, ?_, ?_, ?_, ?_, ?_, ?_⟩ <;>
    simp [RunState.initState, ProcessingQueue.empty]

lemma inv_step {regs : List PlexSection} {st : RunState} (hInv : Inv regs st)
    (op : PQOp) : Inv (regs ++ registered [op]) (stepOp st op) := by
  cases op with
  | addSection s => exact inv_addSection hInv s
  | putSentinel s => exact inv_putSentinel hInv s
  | put item => simpa [registered] using inv_put hInv item
  | get => simpa [registered] using inv_get hInv

/-- Any state reachable by a trace of queue operations satisfies the
invariant. -/
lemma inv_run (maxsize : Nat) (ops : List PQOp) :
    Inv (registered ops) (run maxsize ops) := by
  induction ops using List.reverseRecOn with
  | nil => exact inv_init maxsize
  | append_singleton ops op ih =>
      rw [registered_append]
      have hr : run maxsize (ops ++ [op]) = stepOp (run maxsize ops) op := by
        unfold run
        rw [List.foldl_append]
        rfl
      rw [hr]
      exact inv_step ih op

/-- C1: in any interleaving of producer `put`s (in whatever index order),
section registrations and consumer `get`s, the items served while an
album (ordering-required) section is the active section carry exactly the
indices `0, 1, 2, ...` in delivery order — `get` never yields index `i+1`
before index `i`, with no gaps.  `j` is the registration ordinal of the
section; the delivered indices are read off the full `(index, payload)`
tuples recorded by the trace. -/
theorem processingQueue_album_section_strict_order
    (maxsize : Nat) (ops : List PQOp) (j : Nat) (s : PlexSection)
    (hreg : (registered ops)[j]? = some s)
    (halbum : s.plex_type = PLEX_TYPE_ALBUM) :
    (entriesOrd (run maxsize ops).got j).map (fun e => e.item.index)
      = idxRange (countOrd (run maxsize ops).got j) ∧
    countOrd (run maxsize ops).got j = (entriesOrd (run maxsize ops).got j).length ∧
    idxRange (countOrd (run maxsize ops).got j)
      = (List.range (countOrd (run maxsize ops).got j)).map
          (fun k : Nat => some (k : Int)) := by
  exact ⟨(inv_run maxsize ops).album_idx j s hreg halbum, rfl, rfl⟩

/-- C1 witness: an album section of 2 items whose producer puts index 1
before index 0; the consumer's two successful `get`s deliver index 0 then
index 1 (two further `get` attempts while index 0 was missing blocked and
yielded nothing). -/
theorem processingQueue_album_section_strict_order_witness :
    (registered [.addSection ⟨"album", 2, 0, 0⟩,
        .put ⟨some 1, some ⟨⟨"album", 2, 0, 0⟩, 1⟩⟩, .get,
        .put ⟨some 0, some ⟨⟨"album", 2, 0, 0⟩, 0⟩⟩, .get, .get])[0]?
      = some ⟨"album", 2, 0, 0⟩ ∧
    (entriesOrd (run 0 [.addSection ⟨"album", 2, 0, 0⟩,
        .put ⟨some 1, some ⟨⟨"album", 2, 0, 0⟩, 1⟩⟩, .get,
        .put ⟨some 0, some ⟨⟨"album", 2, 0, 0⟩, 0⟩⟩, .get, .get]).got 0).map
          (fun e => e.item.index)
      = idxRange (countOrd (run 0 [.addSection ⟨"album", 2, 0, 0⟩,
          .put ⟨some 1, some ⟨⟨"album", 2, 0, 0⟩, 1⟩⟩, .get,
          .put ⟨some 0, some ⟨⟨"album", 2, 0, 0⟩, 0⟩⟩, .get, .get]).got 0) ∧
    (entriesOrd (run 0 [.addSection ⟨"album", 2, 0, 0⟩,
        .put ⟨some 1, some ⟨⟨"album", 2, 0, 0⟩, 1⟩⟩, .get,
        .put ⟨some 0, some ⟨⟨"album", 2, 0, 0⟩, 0⟩⟩, .get, .get]).got 0).map
          (fun e => e.item.index)
      = [some 0, some 1] :=
  ⟨by decide,
   (processingQueue_album_section_strict_order 0
      [.addSection ⟨"album", 2, 0, 0⟩,
        .put ⟨some 1, some ⟨⟨"album", 2, 0, 0⟩, 1⟩⟩, .get,
        .put ⟨some 0, some ⟨⟨"album", 2, 0, 0⟩, 0⟩⟩, .get, .get]
      0 ⟨"album", 2, 0, 0⟩ (by decide) (by decide)).1,
   by decide⟩

/-- C2: whenever the trace has advanced past registration ordinal `j`
(`j < popped`), exactly `number_of_items - failed_items` `get`s were
served from that section; the remaining sections are precisely the
registered ones from ordinal `popped` on, in registration order; the
retrieval counter of the (new) active section restarts at the number of
`get`s already attributed to it (0 right after an advance); and the
sections' serving ordinals never decrease along the `got` trace, so every
`get` after the advance serves the next registered section onwards. -/
theorem processingQueue_section_advance
    (maxsize : Nat) (ops : List PQOp) (j : Nat) (s : PlexSection)
    (hreg : (registered ops)[j]? = some s)
    (hdone : j < (run maxsize ops).popped) :
    ((countOrd (run maxsize ops).got j : Int)
        = s.number_of_items - s.failed_items) ∧
    (run maxsize ops).q.sections
      = (registered ops).drop (run maxsize ops).popped ∧
    ((run maxsize ops).q.sections ≠ [] →
      (run maxsize ops).q._counter
        = (countOrd (run maxsize ops).got (run maxsize ops).popped : Int)) ∧
    (run maxsize ops).got.Pairwise (fun a b => a.ordinal ≤ b.ordinal) := by
  have h := inv_run maxsize ops
  exact ⟨h.drained j s hdone hreg, h.secs_eq, h.counter_eq, h.mono⟩

/-- C2 witness: two FIFO sections of 1 item each; after the first
section's single item is retrieved the queue advances, and the second
`get` serves the second section. -/
theorem processingQueue_section_advance_witness :
    (registered [.addSection ⟨"movie", 1, 0, 0⟩, .addSection ⟨"show", 1, 0, 1⟩,
        .put ⟨some 0, some ⟨⟨"movie", 1, 0, 0⟩, 0⟩⟩,
        .put ⟨some 0, some ⟨⟨"show", 1, 0, 1⟩, 1⟩⟩, .get, .get])[0]?
      = some ⟨"movie", 1, 0, 0⟩ ∧
    0 < (run 0 [.addSection ⟨"movie", 1, 0, 0⟩, .addSection ⟨"show", 1, 0, 1⟩,
        .put ⟨some 0, some ⟨⟨"movie", 1, 0, 0⟩, 0⟩⟩,
        .put ⟨some 0, some ⟨⟨"show", 1, 0, 1⟩, 1⟩⟩, .get, .get]).popped ∧
    (countOrd (run 0 [.addSection ⟨"movie", 1, 0, 0⟩, .addSection ⟨"show", 1, 0, 1⟩,
        .put ⟨some 0, some ⟨⟨"movie", 1, 0, 0⟩, 0⟩⟩,
        .put ⟨some 0, some ⟨⟨"show", 1, 0, 1⟩, 1⟩⟩, .get, .get]).got 0 : Int)
      = (1 : Int) - 0 :=
  ⟨by decide, by decide,
   (processingQueue_section_advance 0
      [.addSection ⟨"movie", 1, 0, 0⟩, .addSection ⟨"show", 1, 0, 1⟩,
        .put ⟨some 0, some ⟨⟨"movie", 1, 0, 0⟩, 0⟩⟩,
        .put ⟨some 0, some ⟨⟨"show", 1, 0, 1⟩, 1⟩⟩, .get, .get]
      0 ⟨"movie", 1, 0, 0⟩ (by decide) (by decide)).1⟩

/-! ## ProcessingQueue sentinel: claim C4 -/

lemma sectionIndex_lt {s : PlexSection} :
    ∀ {l : List PlexSection} {i : Nat},
      ProcessingQueue.sectionIndex s l = some i → i < l.length := by
  intro l
  induction l with
  | nil => intro i h; cases h
  | cons t ts ih =>
      intro i h
      by_cases ht : t = s
      · simp only [ProcessingQueue.sectionIndex, if_pos ht, Option.some_inj] at h
        rw [← h]
        simp
      · simp only [ProcessingQueue.sectionIndex, if_neg ht] at h
        cases hts : ProcessingQueue.sectionIndex s ts with
        | none => rw [hts] at h; cases h
        | some i' =>
            rw [hts] at h
            simp at h
            have := ih hts
            simp [← h]
            omega

/-- From the fully drained state (both deques empty) every further
non-registering operation is a no-op: misrouted `put`s raise, `get`s
block, nothing changes. -/
lemma run_absorb {st : RunState} (hsec : st.q.sections = [])
    (hque : st.q.queues = []) :
    ∀ ops : List PQOp, noRegs ops = true → List.foldl stepOp st ops = st
  | [], _ => rfl
  | op :: ops, hops => by
      cases op with
      | addSection s => simp [noRegs] at hops
      | putSentinel s => simp [noRegs] at hops
      | put item =>
          have hstep : stepOp st (.put item) = st := by
            cases hout : st.q.put item with
            | ok q' =>
                obtain ⟨i, p, -, hidx, -⟩ := put_ok_inversion hout
                rw [hsec] at hidx
                cases hidx
            | full => simp [stepOp, hout]
            | sectionNotFound => simp [stepOp, hout]
          rw [List.foldl_cons, hstep]
          exact run_absorb hsec hque ops (by simpa [noRegs] using hops)
      | get =>
          have hget : st.q._get = none := by
            simp only [ProcessingQueue._get, hsec, hque]
          have hstep : stepOp st .get = st := by simp [stepOp, hget]
          rw [List.foldl_cons, hstep]
          exact run_absorb hsec hque ops (by simpa [noRegs] using hops)

lemma sentinelInv_establish {regs : List PlexSection} {st : RunState}
    (hInv : Inv regs st) (s : PlexSection)
    (hplex : s.plex_type ≠ PLEX_TYPE_ALBUM) :
    SentinelInv { s with number_of_items := 1, failed_items := 0 }
      (stepOp st (.putSentinel s)) := by
  have hnewq : (if ({ s with number_of_items := 1, failed_items := 0 }
        : PlexSection).plex_type = PLEX_TYPE_ALBUM then
        SubQueue.ordered [] 0 else SubQueue.fifo []) = SubQueue.fifo [] :=
    if_neg hplex
  have hlm : ProcessingQueue.listModify (SubQueue.push ⟨none, none⟩)
        ((st.q.queues ++ [SubQueue.fifo []]).length - 1)
        (st.q.queues ++ [SubQueue.fifo []])
      = st.q.queues ++ [(SubQueue.fifo []).push ⟨none, none⟩] := by
    have hlen : (st.q.queues ++ [SubQueue.fifo []]).length - 1
        = st.q.queues.length := by simp
    rw [hlen, ProcessingQueue.listModify_append_last]
  have hstep : stepOp st (.putSentinel s)
      = { st with q := { st.q with
            sections := st.q.sections ++
              [{ s with number_of_items := 1, failed_items := 0 }]
            queues := st.q.queues ++ [SubQueue.fifo [⟨none, none⟩]]
            unfinished_tasks := st.q.unfinished_tasks + 1 } } := by
    show { st with q := st.q.put_sentinel s } = _
    simp only [ProcessingQueue.put_sentinel, ProcessingQueue._add_section, hnewq, hlm]
    rfl
  rw [hstep]
  refine ⟨by simp [hInv.len_eq], Or.inr ⟨by simp, ?_, ⟨[], ?_⟩, ?_⟩⟩
  · rw [List.getLast?_concat]
  · rw [List.getLast?_concat]
  · intro h1
    have h0 : st.q.sections = [] := by
      have hl := congrArg List.length h1
      simpa using hl
    exact hInv.counter_empty h0

lemma sentinelInv_put {s' : PlexSection} {st : RunState} (h : SentinelInv s' st)
    (item : PQItem) : SentinelInv s' (stepOp st (.put item)) := by
  obtain ⟨hlen, hdis⟩ := h
  cases hout : st.q.put item with
  | full => simpa [stepOp, hout] using And.intro hlen hdis
  | sectionNotFound => simpa [stepOp, hout] using And.intro hlen hdis
  | ok q' =>
      obtain ⟨i, p, hp, hidx, rfl⟩ := put_ok_inversion hout
      have hstep : stepOp st (.put item)
          = { st with q := { st.q with
                queues := ProcessingQueue.listModify (SubQueue.push item) i st.q.queues
                unfinished_tasks := st.q.unfinished_tasks + 1 } } := by
        simp [stepOp, hout]
      rw [hstep]
      refine ⟨by simpa [ProcessingQueue.listModify_length] using hlen, ?_⟩
      rcases hdis with ⟨hs, hq⟩ | ⟨hne, hlast, ⟨junk, hqlast⟩, hcnt⟩
      · rw [hs] at hidx
        cases hidx
      · refine Or.inr ⟨hne, hlast, ?_, fun h1 => hcnt h1⟩
        rw [List.getLast?_eq_getElem?] at hqlast
        by_cases hi : i = st.q.queues.length - 1
        · refine ⟨junk ++ [item], ?_⟩
          rw [List.getLast?_eq_getElem?]
          show (ProcessingQueue.listModify (SubQueue.push item) i
              st.q.queues)[(ProcessingQueue.listModify (SubQueue.push item) i
                st.q.queues).length - 1]? = _
          rw [ProcessingQueue.listModify_length, ← hi,
            ProcessingQueue.listModify_getElem?_self, hi, hqlast]
          simp [SubQueue.push]
        · refine ⟨junk, ?_⟩
          rw [List.getLast?_eq_getElem?]
          show (ProcessingQueue.listModify (SubQueue.push item) i
              st.q.queues)[(ProcessingQueue.listModify (SubQueue.push item) i
                st.q.queues).length - 1]? = _
          rw [ProcessingQueue.listModify_length,
            ProcessingQueue.listModify_getElem?_ne _ _ _ _ hi]
          exact hqlast

lemma sentinelInv_get {s' : PlexSection} {st : RunState} (h : SentinelInv s' st)
    (hn : s'.number_of_items = 1) (hf : s'.failed_items = 0) :
    SentinelInv s' (stepOp st .get) := by
  obtain ⟨hlen, hdis⟩ := h
  cases hget : st.q._get with
  | none => simpa [stepOp, hget] using And.intro hlen hdis
  | some r =>
      obtain ⟨item, q'⟩ := r
      have hstep : stepOp st .get
          = { q := q'
              popped := st.popped + (st.q.sections.length - q'.sections.length)
              got := st.got ++ [⟨st.popped, item⟩] } := by
        simp [stepOp, hget]
      rw [hstep]
      cases hsec : st.q.sections with
      | nil =>
          simp only [ProcessingQueue._get, hsec] at hget
          cases hget
      | cons sec srest =>
      cases hque : st.q.queues with
      | nil =>
          simp only [ProcessingQueue._get, hsec, hque] at hget
          cases hget
      | cons sq qrest =>
      simp only [ProcessingQueue._get, hsec, hque] at hget
      cases hpop : sq.pop with
      | none =>
          simp only [hpop] at hget
          cases hget
      | some pr =>
      obtain ⟨it0, sq'⟩ := pr
      simp only [hpop] at hget
      rcases hdis with ⟨hs, -⟩ | ⟨-, hlast, ⟨junk, hqlast⟩, hcnt⟩
      · rw [hs] at hsec
        cases hsec
      · cases srest with
        | nil =>
            have hsec' : sec = s' := by
              have h2 := hlast
              rw [hsec] at h2
              simpa using h2
            subst hsec'
            have hq1 : qrest = [] := by
              have h2 := hlen
              rw [hsec, hque] at h2
              simpa using h2
            subst hq1
            have hsq : sq = .fifo (⟨none, none⟩ :: junk) := by
              have h2 := hqlast
              rw [hque] at h2
              simpa using h2
            subst hsq
            have hc0 : st.q._counter = 0 := hcnt hsec
            simp only [SubQueue.pop, Option.some_inj, Prod.mk.injEq] at hpop
            rw [hc0, hn, hf] at hget
            rw [if_pos (by norm_num)] at hget
            rw [Option.some_inj] at hget
            obtain ⟨-, h2⟩ := Prod.mk.injEq .. ▸ hget
            rw [← h2]
            exact ⟨rfl, Or.inl ⟨rfl, rfl⟩⟩
        | cons sec2 srest2 =>
            have hlast2 : (sec2 :: srest2).getLast? = some s' := by
              have h2 := hlast
              rw [hsec, List.getLast?_cons_cons] at h2
              exact h2
            cases qrest with
            | nil =>
                have h2 := hlen
                rw [hsec, hque] at h2
                simp at h2
            | cons q2 qrest2 =>
            have hqlast2 : (q2 :: qrest2).getLast? = some (.fifo (⟨none, none⟩ :: junk)) := by
              have h2 := hqlast
              rw [hque, List.getLast?_cons_cons] at h2
              exact h2
            by_cases hadv : st.q._counter + 1 = sec.number_of_items - sec.failed_items
            · rw [if_pos hadv, Option.some_inj] at hget
              obtain ⟨-, h2⟩ := Prod.mk.injEq .. ▸ hget
              rw [← h2]
              refine ⟨?_, Or.inr ⟨by simp, ?_, ⟨junk, ?_⟩, ?_⟩⟩
              · have h3 := hlen
                rw [hsec, hque] at h3
                simpa using h3
              · exact hlast2
              · exact hqlast2
              · intro _
                rfl
            · rw [if_neg hadv, Option.some_inj] at hget
              obtain ⟨-, h2⟩ := Prod.mk.injEq .. ▸ hget
              rw [← h2]
              refine ⟨?_, Or.inr ⟨by simp, ?_, ⟨junk, ?_⟩, ?_⟩⟩
              · have h3 := hlen
                rw [hsec, hque] at h3
                simpa using h3
              · show (sec :: sec2 :: srest2).getLast? = some s'
                rw [List.getLast?_cons_cons]
                exact hlast2
              · show (sq' :: q2 :: qrest2).getLast? = some (.fifo (⟨none, none⟩ :: junk))
                rw [List.getLast?_cons_cons]
                exact hqlast2
              · intro h4
                cases h4

lemma sentinelInv_run {s' : PlexSection} (hn : s'.number_of_items = 1)
    (hf : s'.failed_items = 0) :
    ∀ (ops : List PQOp) (st : RunState), SentinelInv s' st → noRegs ops = true →
      SentinelInv s' (List.foldl stepOp st ops)
  | [], _, h, _ => h
  | op :: ops, st, h, hops => by
      cases op with
      | addSection s => simp [noRegs] at hops
      | putSentinel s => simp [noRegs] at hops
      | put item =>
          rw [List.foldl_cons]
          exact sentinelInv_run hn hf ops _ (sentinelInv_put h item)
            (by simpa [noRegs] using hops)
      | get =>
          rw [List.foldl_cons]
          exact sentinelInv_run hn hf ops _ (sentinelInv_get h hn hf)
            (by simpa [noRegs] using hops)

/-- C4: when `put_sentinel(section)` is called with an empty (non-album)
section as the last section added (no later registrations), then at any
point where every item of every previously registered section has been
retrieved — the sentinel section is the only one left — exactly one
further `get()` yields the sentinel tuple `(None, None)` (of which the
consumer receives the payload, `None`, marking end-of-stream), the queue
becomes empty, and no further items are ever produced by subsequent
`get()` calls whatever non-registering operations follow. -/
theorem processingQueue_sentinel_end_of_stream
    (maxsize : Nat) (pre post : List PQOp) (s : PlexSection)
    (hplex : s.plex_type ≠ PLEX_TYPE_ALBUM)
    (hpost : noRegs post = true)
    (hdrained : (run maxsize (pre ++ .putSentinel s :: post)).q.sections
        = [{ s with number_of_items := 1, failed_items := 0 }]) :
    (stepOp (run maxsize (pre ++ .putSentinel s :: post)) .get).got
      = (run maxsize (pre ++ .putSentinel s :: post)).got
          ++ [⟨(run maxsize (pre ++ .putSentinel s :: post)).popped, ⟨none, none⟩⟩] ∧
    (stepOp (run maxsize (pre ++ .putSentinel s :: post)) .get).q.sections = [] ∧
    (stepOp (run maxsize (pre ++ .putSentinel s :: post)) .get).q.queues = [] ∧
    ∀ post2 : List PQOp, noRegs post2 = true →
      (List.foldl stepOp
          (stepOp (run maxsize (pre ++ .putSentinel s :: post)) .get) post2).got
        = (stepOp (run maxsize (pre ++ .putSentinel s :: post)) .get).got := by
  set s' : PlexSection := { s with number_of_items := 1, failed_items := 0 } with hs'
  set st1 : RunState := run maxsize (pre ++ .putSentinel s :: post) with hst1
  have hsplit : st1 = List.foldl stepOp
      (stepOp (run maxsize pre) (.putSentinel s)) post := by
    rw [hst1]
    unfold run
    rw [List.foldl_append]
    rfl
  have hSI : SentinelInv s' st1 := by
    rw [hsplit]
    exact sentinelInv_run rfl rfl post _
      (sentinelInv_establish (inv_run maxsize pre) s hplex) hpost
  obtain ⟨hlen, hdis⟩ := hSI
  rcases hdis with ⟨hs0, -⟩ | ⟨-, -, ⟨junk, hqlast⟩, hcnt⟩
  · rw [hdrained] at hs0
    cases hs0
  · have hq1 : ∃ sq, st1.q.queues = [sq] := by
      apply List.length_eq_one.mp
      rw [hlen, hdrained]
      rfl
    obtain ⟨sq, hq⟩ := hq1
    have hsq : sq = .fifo (⟨none, none⟩ :: junk) := by
      rw [hq] at hqlast
      simpa using hqlast
    subst hsq
    have hc0 : st1.q._counter = 0 := hcnt hdrained
    have hget : st1.q._get = some (⟨none, none⟩,
        { st1.q with sections := [], queues := [], _counter := 0 }) := by
      simp only [ProcessingQueue._get, hdrained, hq, SubQueue.pop]
      rw [hc0]
      rw [if_pos (by norm_num)]
    have hstep : stepOp st1 .get
        = { q := { st1.q with sections := [], queues := [], _counter := 0 }
            popped := st1.popped + (st1.q.sections.length - 0)
            got := st1.got ++ [⟨st1.popped, ⟨none, none⟩⟩] } := by
      simp [stepOp, hget]
    rw [hstep]
    refine ⟨rfl, rfl, rfl, ?_⟩
    intro post2 hpost2
    rw [run_absorb rfl rfl post2 hpost2]

/-- C4 witness: one prior FIFO section of one item, then the sentinel;
after the prior item is retrieved, one further `get` yields the sentinel
tuple `(None, None)` and later `get`s and `put`s produce nothing. -/
theorem processingQueue_sentinel_end_of_stream_witness :
    (run 0 [.addSection ⟨"movie", 1, 0, 0⟩,
        .put ⟨some 0, some ⟨⟨"movie", 1, 0, 0⟩, 0⟩⟩, .putSentinel ⟨"", 0, 0, 9⟩,
        .get]).q.sections = [⟨"", 1, 0, 9⟩] ∧
    (stepOp (run 0 [.addSection ⟨"movie", 1, 0, 0⟩,
        .put ⟨some 0, some ⟨⟨"movie", 1, 0, 0⟩, 0⟩⟩, .putSentinel ⟨"", 0, 0, 9⟩,
        .get]) .get).got
      = (run 0 [.addSection ⟨"movie", 1, 0, 0⟩,
          .put ⟨some 0, some ⟨⟨"movie", 1, 0, 0⟩, 0⟩⟩, .putSentinel ⟨"", 0, 0, 9⟩,
          .get]).got
        ++ [⟨(run 0 [.addSection ⟨"movie", 1, 0, 0⟩,
              .put ⟨some 0, some ⟨⟨"movie", 1, 0, 0⟩, 0⟩⟩,
              .putSentinel ⟨"", 0, 0, 9⟩, .get]).popped, ⟨none, none⟩⟩] :=
  ⟨by decide,
   (processingQueue_sentinel_end_of_stream 0
      [.addSection ⟨"movie", 1, 0, 0⟩, .put ⟨some 0, some ⟨⟨"movie", 1, 0, 0⟩, 0⟩⟩]
      [.get] ⟨"", 0, 0, 9⟩ (by decide) (by decide) (by decide)).1⟩

end PKC
